import Mathlib

/-!
Verification development for the whatsapp-poke server core.

Strings that undergo character-level manipulation (payload escaping, digest
formatting, log-line parsing) are embedded as `List Char`; strings that are
only compared for equality (tags, statuses, agent names) use `String` or
`List Char` as convenient.  Python `datetime` instants are embedded as `Int`
(seconds); `timedelta(minutes=5)` becomes `300`.  UUIDs and request ids,
which are only compared for equality, are embedded as `Nat`.
External libraries (the iCalendar rrule engine, the JSON codec, the LLM
completion endpoint) are not part of the repository; they enter the
embedding as explicit function parameters.
-/

/-! ## Python string primitives -/

/-- Python whitespace characters recognised by `str.strip()` (ASCII subset
plus the common Unicode ones that can appear here). -/
def isPySpace (c : Char) : Bool :=
  c = ' ' || c = '\t' || c = '\n' || c = '\r' || c = '\x0b' || c = '\x0c'

/-- Python `str.strip()` on a character list. -/
def pyStrip (s : List Char) : List Char :=
  ((s.dropWhile isPySpace).reverse.dropWhile isPySpace).reverse

/-- `"\n".join`: Python `str.join` with a single newline separator. -/
def joinNL : List (List Char) → List Char
  | [] => []
  | [x] => x
  | x :: y :: rest => x ++ '\n' :: joinNL (y :: rest)

/-- Python `s.split("\n")`: split on every newline; `"".split("\n") = [""]`. -/
def splitNL : List Char → List (List Char)
  | [] => [[]]
  | c :: rest =>
    if c = '\n' then [] :: splitNL rest
    else
      match splitNL rest with
      | [] => [[c]]
      | l :: ls => (c :: l) :: ls

/-! ## Batch manager (`server/agents/execution_agent/batch_manager.py`)

The manager is driven under `self._batch_lock`; each locked section is one
atomic step of the state machine below.  Logging statements are not
modelled.
-/

/-- `ExecutionResult` from `execution_agent/runtime.py`.  The `response`
field is a plain `str` in the dataclass; Python truthiness (`result.response
or ...`) treats the empty string like `None`, so the empty list plays both
roles here. -/
structure ExecutionResult where
  agentName : List Char
  success : Bool
  response : List Char
  error : Option (List Char)
deriving Repr, DecidableEq

/-- `PendingExecution` dataclass (the `created_at` wall-clock field is
dropped: it is never read by the protocol). -/
structure PendingExecution where
  requestId : Nat
  agentName : List Char
  instructions : List Char
  batchId : Nat
deriving Repr, DecidableEq

/-- `_BatchState` dataclass (`created_at` dropped, as above). -/
structure BatchSt where
  batchId : Nat
  pending : Int
  results : List ExecutionResult
deriving Repr, DecidableEq

/-- The mutable fields of `ExecutionBatchManager`: the `_pending` dict
(keyed by request id) and the optional `_batch_state`. -/
structure BMState where
  pendingMap : List (Nat × PendingExecution)
  batchState : Option BatchSt
deriving Repr, DecidableEq

/-- The empty manager produced by `__init__`. -/
def BMState.initial : BMState := ⟨[], none⟩

/-- Python dict assignment `d[k] = v`: overwrite if present, else append. -/
def dictInsert (m : List (Nat × PendingExecution)) (k : Nat) (v : PendingExecution) :
    List (Nat × PendingExecution) :=
  if m.any (fun kv => kv.1 = k) then
    m.map (fun kv => if kv.1 = k then (k, v) else kv)
  else
    m ++ [(k, v)]

/-- Python `d.pop(k, None)`: remove the key if present. -/
def dictPop (m : List (Nat × PendingExecution)) (k : Nat) :
    List (Nat × PendingExecution) :=
  m.filter (fun kv => kv.1 ≠ k)

/-- `ExecutionBatchManager._register_pending_execution`.  `freshId` stands
for the `uuid.uuid4()` drawn when no batch is open.  Returns the batch id
handed back to `execute_agent` together with the new state. -/
def registerPendingExecution (st : BMState) (freshId : Nat)
    (agentName instructions : List Char) (requestId : Nat) : Nat × BMState :=
  let batch :=
    match st.batchState with
    | none => { batchId := freshId, pending := 0, results := [] : BatchSt }
    | some b => b
  let batch' := { batch with pending := batch.pending + 1 }
  let pm := dictInsert st.pendingMap requestId
    { requestId := requestId, agentName := agentName,
      instructions := instructions, batchId := batch.batchId }
  (batch.batchId, { pendingMap := pm, batchState := some batch' })

/-- `ExecutionBatchManager._format_batch_payload`: one
`[SUCCESS|FAILED] agent: response` entry per result, joined by newlines. -/
def formatBatchPayload (results : List ExecutionResult) : List Char :=
  joinNL (results.map (fun result =>
    let status : List Char := if result.success then "SUCCESS".toList else "FAILED".toList
    let responseText := pyStrip
      (if result.response = [] then "(no response provided)".toList else result.response)
    '[' :: status ++ ']' :: ' ' :: result.agentName ++ ':' :: ' ' :: responseText))

/-- The single digest entry `_format_batch_payload` renders for one result. -/
def renderResultEntry (result : ExecutionResult) : List Char :=
  let status : List Char := if result.success then "SUCCESS".toList else "FAILED".toList
  let responseText := pyStrip
    (if result.response = [] then "(no response provided)".toList else result.response)
  '[' :: status ++ ']' :: ' ' :: result.agentName ++ ':' :: ' ' :: responseText

/-- `ExecutionBatchManager._complete_execution`.  Returns the new state and
the payload dispatched to the interaction agent, when the batch drained.
An unknown or already-sealed batch id is dropped (the warning log is not
modelled) and the call returns normally. -/
def completeExecution (st : BMState) (batchId : Nat) (result : ExecutionResult) :
    BMState × Option (List Char) :=
  match st.batchState with
  | none => (st, none)
  | some state =>
    if state.batchId ≠ batchId then (st, none)
    else
      let results := state.results ++ [result]
      let pending := state.pending - 1
      if pending = 0 then
        ({ st with batchState := none }, some (formatBatchPayload results))
      else
        ({ st with batchState := some { state with pending := pending, results := results } }, none)

/-- The tail of `execute_agent`: `self._pending.pop(request_id, None)`
followed by `_complete_execution(batch_id, result, ...)`.  This is the
atomic step taken when one outstanding dispatch completes. -/
def completeStep (st : BMState) (requestId batchId : Nat) (result : ExecutionResult) :
    BMState × Option (List Char) :=
  completeExecution { st with pendingMap := dictPop st.pendingMap requestId } batchId result

/-- Fold a sequence of `_register_pending_execution` calls (one per
`execute_agent` entry) over the state.  Every call that opens a batch uses
`freshId`; calls that join the open batch ignore it, exactly as in the
source. -/
def registerAll (st : BMState) (freshId : Nat)
    (regs : List (Nat × List Char × List Char)) : BMState :=
  regs.foldl (fun s reg =>
    (registerPendingExecution s freshId reg.2.1 reg.2.2 reg.1).2) st

/-- Run a sequence of completion steps against batch `batchId`, collecting
the payload (if any) each step dispatched. -/
def completeSeq (st : BMState) (batchId : Nat)
    (completions : List (Nat × ExecutionResult)) : BMState × List (Option (List Char)) :=
  match completions with
  | [] => (st, [])
  | (reqId, result) :: rest =>
    let step := completeStep st reqId batchId result
    let tail := completeSeq step.1 batchId rest
    (tail.1, step.2 :: tail.2)


/-! ### Batch manager lemmas -/

lemma dictInsert_fresh (m : List (Nat × PendingExecution)) (k : Nat) (v : PendingExecution)
    (h : k ∉ m.map (·.1)) : dictInsert m k v = m ++ [(k, v)] := by
  have hc : ¬ (m.any (fun kv => kv.1 = k) = true) := by
    simp only [List.any_eq_true, decide_eq_true_eq]
    rintro ⟨kv, hkv, hk⟩
    exact h (List.mem_map.mpr ⟨kv, hkv, hk⟩)
  simp only [dictInsert]
  rw [if_neg hc]

lemma registerAll_spec (regs : List (Nat × List Char × List Char))
    (pm : List (Nat × PendingExecution)) (u : Nat) (p : Int) (rs : List ExecutionResult)
    (hnd : (regs.map (·.1)).Nodup)
    (hfresh : ∀ k ∈ regs.map (·.1), k ∉ pm.map (·.1)) :
    (registerAll ⟨pm, some ⟨u, p, rs⟩⟩ u regs).batchState
        = some ⟨u, p + regs.length, rs⟩ ∧
    (registerAll ⟨pm, some ⟨u, p, rs⟩⟩ u regs).pendingMap.length
        = pm.length + regs.length ∧
    (registerAll ⟨pm, some ⟨u, p, rs⟩⟩ u regs).pendingMap.map (·.1)
        = pm.map (·.1) ++ regs.map (·.1) := by
  induction regs generalizing pm p with
  | nil => simp [registerAll]
  | cons reg rest ih =>
    obtain ⟨r, a, i⟩ := reg
    have hnd2 : (r :: rest.map (·.1)).Nodup := by
      simpa only [List.map_cons] using hnd
    have hr : r ∉ pm.map (·.1) := hfresh r (by simp)
    have hstep0 : (registerPendingExecution ⟨pm, some ⟨u, p, rs⟩⟩ u a i r).2
        = ⟨pm ++ [(r, ⟨r, a, i, u⟩)], some ⟨u, p + 1, rs⟩⟩ := by
      simp [registerPendingExecution, dictInsert_fresh pm r _ hr]
    have hstep : registerAll ⟨pm, some ⟨u, p, rs⟩⟩ u ((r, a, i) :: rest)
        = registerAll ⟨pm ++ [(r, ⟨r, a, i, u⟩)], some ⟨u, p + 1, rs⟩⟩ u rest := by
      simp only [registerAll, List.foldl_cons]
      rw [hstep0]
    have hnd' : (rest.map (·.1)).Nodup := (List.nodup_cons.mp hnd2).2
    have hne : r ∉ rest.map (·.1) := (List.nodup_cons.mp hnd2).1
    have hfresh' : ∀ k ∈ rest.map (·.1),
        k ∉ (pm ++ [(r, (⟨r, a, i, u⟩ : PendingExecution))]).map (·.1) := by
      intro k hk
      simp only [List.map_append, List.mem_append, List.map_cons, List.map_nil,
        List.mem_singleton, not_or]
      refine ⟨hfresh k (by simp [hk]), ?_⟩
      intro hkr
      exact hne (hkr ▸ hk)
    obtain ⟨h1, h2, h3⟩ := ih (pm ++ [(r, ⟨r, a, i, u⟩)]) (p + 1) hnd' hfresh'
    refine ⟨?_, ?_, ?_⟩
    · rw [hstep, h1]
      simp only [Option.some.injEq, BatchSt.mk.injEq, true_and, and_true, List.length_cons]
      push_cast
      ring
    · rw [hstep, h2]
      simp only [List.length_append, List.length_cons, List.length_nil]
      omega
    · rw [hstep, h3]
      simp [List.map_append]

lemma completeSeq_spec (completions : List (Nat × ExecutionResult))
    (pm : List (Nat × PendingExecution)) (u : Nat) (rs : List ExecutionResult)
    (hne : completions ≠ []) :
    (completeSeq ⟨pm, some ⟨u, (completions.length : Int), rs⟩⟩ u completions).2
        = List.replicate (completions.length - 1) none
          ++ [some (formatBatchPayload (rs ++ completions.map (·.2)))] ∧
    (completeSeq ⟨pm, some ⟨u, (completions.length : Int), rs⟩⟩ u completions).1.batchState
        = none := by
  induction completions generalizing pm rs with
  | nil => exact absurd rfl hne
  | cons c rest ih =>
    obtain ⟨reqId, result⟩ := c
    by_cases hrest : rest = []
    · subst hrest
      simp [completeSeq, completeStep, completeExecution, formatBatchPayload]
    · have hlen : (0 : Int) < (rest.length : Int) := by
        exact_mod_cast List.length_pos.mpr hrest
      have hstep : completeStep ⟨pm, some ⟨u, (((reqId, result) :: rest).length : Int), rs⟩⟩
            reqId u result
          = (⟨dictPop pm reqId, some ⟨u, (rest.length : Int), rs ++ [result]⟩⟩, none) := by
        simp only [completeStep, completeExecution, List.length_cons]
        rw [if_neg (by simp)]
        rw [if_neg (by push_cast; omega)]
        have harith : (((rest.length + 1 : Nat)) : Int) - 1 = (rest.length : Int) := by
          push_cast
          ring
        rw [harith]
      obtain ⟨h1, h2⟩ := ih (dictPop pm reqId) (rs ++ [result]) hrest
      constructor
      · show (completeSeq _ u ((reqId, result) :: rest)).2 = _
        simp only [completeSeq]
        rw [hstep]
        simp only [h1]
        have hcons : List.replicate (((reqId, result) :: rest).length - 1) (none : Option (List Char))
            = none :: List.replicate (rest.length - 1) none := by
          have hn : ((reqId, result) :: rest).length - 1 = (rest.length - 1) + 1 := by
            simp only [List.length_cons]
            omega
          rw [hn, List.replicate_succ]
        rw [hcons]
        simp [List.append_assoc]
      · show (completeSeq _ u ((reqId, result) :: rest)).1.batchState = none
        simp only [completeSeq]
        rw [hstep]
        simpa using h2

/-- The first registration opens the batch with the fresh id. -/
lemma registerAll_initial (u : Nat) (r : Nat) (a i : List Char)
    (rest : List (Nat × List Char × List Char)) :
    registerAll BMState.initial u ((r, a, i) :: rest)
      = registerAll ⟨[(r, (⟨r, a, i, u⟩ : PendingExecution))], some ⟨u, 1, []⟩⟩ u rest := by
  simp only [registerAll, List.foldl_cons]
  rw [show (registerPendingExecution BMState.initial u a i r).2
      = (⟨[(r, (⟨r, a, i, u⟩ : PendingExecution))], some ⟨u, 1, []⟩⟩ : BMState) by
    simp [registerPendingExecution, BMState.initial, dictInsert]]

/-- Full protocol run: registrations followed by completions (shared
helper for the claims about the batch manager). -/
lemma batchProtocol_spec
    (u : Nat) (regs : List (Nat × List Char × List Char))
    (completions : List (Nat × ExecutionResult))
    (hnd : (regs.map (·.1)).Nodup)
    (hne : regs ≠ [])
    (hlen : completions.length = regs.length) :
    (∀ pre post, regs = pre ++ post → pre ≠ [] →
        (registerAll BMState.initial u pre).batchState
            = some ⟨u, (pre.length : Int), []⟩ ∧
        (registerAll BMState.initial u pre).pendingMap.length = pre.length) ∧
    (completeSeq (registerAll BMState.initial u regs) u completions).2
        = List.replicate (completions.length - 1) none
          ++ [some (formatBatchPayload (completions.map (·.2)))] ∧
    (completeSeq (registerAll BMState.initial u regs) u completions).1.batchState
        = none := by
  have prefixSpec : ∀ pre post, regs = pre ++ post → pre ≠ [] →
      (registerAll BMState.initial u pre).batchState
          = some ⟨u, (pre.length : Int), []⟩ ∧
      (registerAll BMState.initial u pre).pendingMap.length = pre.length := by
    intro pre post hsplit hpre
    obtain ⟨⟨r, a, i⟩, pre', rfl⟩ := List.exists_cons_of_ne_nil hpre
    have hndfull := hnd
    rw [hsplit, List.map_append] at hndfull
    have hndpre : ((((r, a, i) :: pre').map (·.1))).Nodup := hndfull.of_append_left
    have hnd2 : (r :: pre'.map (·.1)).Nodup := by
      simpa only [List.map_cons] using hndpre
    have hnd' : (pre'.map (·.1)).Nodup := (List.nodup_cons.mp hnd2).2
    have hner : r ∉ pre'.map (·.1) := (List.nodup_cons.mp hnd2).1
    have hfresh' : ∀ k ∈ pre'.map (·.1),
        k ∉ ([(r, (⟨r, a, i, u⟩ : PendingExecution))].map (·.1)) := by
      intro k hk
      simp only [List.map_cons, List.map_nil, List.mem_singleton]
      intro hkr
      exact hner (hkr ▸ hk)
    obtain ⟨h1, h2, _⟩ := registerAll_spec pre' [(r, ⟨r, a, i, u⟩)] u 1 [] hnd' hfresh'
    rw [registerAll_initial]
    refine ⟨?_, ?_⟩
    · rw [h1]
      simp only [Option.some.injEq, BatchSt.mk.injEq, true_and, and_true, List.length_cons]
      push_cast
      ring
    · rw [h2]
      simp only [List.length_cons, List.length_nil, List.length_append]
      omega
  have hbs := (prefixSpec regs [] (by simp) hne).1
  have hcne : completions ≠ [] := by
    intro h
    rw [h] at hlen
    exact hne (List.length_eq_zero.mp hlen.symm)
  have hst : registerAll BMState.initial u regs
      = ⟨(registerAll BMState.initial u regs).pendingMap,
         some ⟨u, (completions.length : Int), []⟩⟩ := by
    have hb2 : (registerAll BMState.initial u regs).batchState
        = some ⟨u, (completions.length : Int), []⟩ := by
      rw [hbs, hlen]
    calc registerAll BMState.initial u regs
        = ⟨(registerAll BMState.initial u regs).pendingMap,
           (registerAll BMState.initial u regs).batchState⟩ := rfl
      _ = ⟨(registerAll BMState.initial u regs).pendingMap,
           some ⟨u, (completions.length : Int), []⟩⟩ := by rw [hb2]
  refine ⟨prefixSpec, ?_, ?_⟩
  · rw [hst]
    simpa using (completeSeq_spec completions _ u [] hcne).1
  · rw [hst]
    simpa using (completeSeq_spec completions _ u [] hcne).2

/-- C1.  For every sequence of `register` calls followed by their
completions: after each registration the open batch's `pending` counter
equals the number of outstanding dispatches (the entries of the `_pending`
dict); every completion but the last dispatches nothing; the last
completion dispatches exactly one payload containing all collected results
in completion order and discards the batch state, i.e. the batch is sealed
exactly once, when and only when the last outstanding dispatch completes,
and no result appended before sealing is lost. -/
theorem batch_pending_count_and_sealing
    (u : Nat) (regs : List (Nat × List Char × List Char))
    (completions : List (Nat × ExecutionResult))
    (hnd : (regs.map (·.1)).Nodup)
    (hne : regs ≠ [])
    (hlen : completions.length = regs.length) :
    (∀ pre post, regs = pre ++ post → pre ≠ [] →
        (registerAll BMState.initial u pre).batchState
            = some ⟨u, (pre.length : Int), []⟩ ∧
        (registerAll BMState.initial u pre).pendingMap.length = pre.length) ∧
    (completeSeq (registerAll BMState.initial u regs) u completions).2
        = List.replicate (completions.length - 1) none
          ++ [some (formatBatchPayload (completions.map (·.2)))] ∧
    (completeSeq (registerAll BMState.initial u regs) u completions).1.batchState
        = none :=
  batchProtocol_spec u regs completions hnd hne hlen

/-- Witness for `batch_pending_count_and_sealing`: two registrations then
two completions; the first completion dispatches nothing, the second
dispatches the combined digest and seals the batch. -/
theorem batch_pending_count_and_sealing_witness :
    ((registerAll BMState.initial 7 [(1, "alpha".toList, "do-a".toList)]).batchState
        = some ⟨7, 1, []⟩) ∧
    ((registerAll BMState.initial 7
        [(1, "alpha".toList, "do-a".toList), (2, "beta".toList, "do-b".toList)]).batchState
        = some ⟨7, 2, []⟩) ∧
    (completeSeq (registerAll BMState.initial 7
        [(1, "alpha".toList, "do-a".toList), (2, "beta".toList, "do-b".toList)]) 7
        [(1, ⟨"alpha".toList, true, "ok-a".toList, none⟩),
         (2, ⟨"beta".toList, false, "bad-b".toList, some "E".toList⟩)]).2
        = List.replicate 1 none
          ++ [some (formatBatchPayload
              [⟨"alpha".toList, true, "ok-a".toList, none⟩,
               ⟨"beta".toList, false, "bad-b".toList, some "E".toList⟩])] := by
  have h := batch_pending_count_and_sealing 7
    [(1, "alpha".toList, "do-a".toList), (2, "beta".toList, "do-b".toList)]
    [(1, ⟨"alpha".toList, true, "ok-a".toList, none⟩),
     (2, ⟨"beta".toList, false, "bad-b".toList, some "E".toList⟩)]
    (by decide) (by decide) (by decide)
  refine ⟨?_, ?_, ?_⟩
  · exact (h.1 [(1, "alpha".toList, "do-a".toList)] [(2, "beta".toList, "do-b".toList)]
      rfl (by decide)).1
  · exact (h.1 [(1, "alpha".toList, "do-a".toList), (2, "beta".toList, "do-b".toList)] []
      (by decide) (by decide)).1
  · simpa using h.2.1

/-! ### Digest structure (C2) and dropped results (C8) -/

lemma splitNL_noNL (s : List Char) (h : '\n' ∉ s) : splitNL s = [s] := by
  induction s with
  | nil => rfl
  | cons c rest ih =>
    have hc : ¬ c = '\n' := by
      intro hc
      exact h (hc ▸ List.mem_cons_self c rest)
    have hrest : '\n' ∉ rest := fun hm => h (List.mem_cons_of_mem c hm)
    simp only [splitNL]
    rw [if_neg hc, ih hrest]

lemma splitNL_append_nl (x z : List Char) (h : '\n' ∉ x) :
    splitNL (x ++ '\n' :: z) = x :: splitNL z := by
  induction x with
  | nil => simp [splitNL]
  | cons c x' ih =>
    have hc : ¬ c = '\n' := by
      intro hc
      exact h (hc ▸ List.mem_cons_self c x')
    have hx' : '\n' ∉ x' := fun hm => h (List.mem_cons_of_mem c hm)
    simp only [List.cons_append, splitNL, List.append_eq]
    rw [if_neg hc, ih hx']

lemma splitNL_joinNL (xs : List (List Char)) (hx : ∀ x ∈ xs, '\n' ∉ x) (hne : xs ≠ []) :
    splitNL (joinNL xs) = xs := by
  induction xs with
  | nil => exact absurd rfl hne
  | cons x rest ih =>
    cases rest with
    | nil => exact splitNL_noNL x (hx x (List.mem_cons_self x []))
    | cons y rest' =>
      have hx0 : '\n' ∉ x := hx x (List.mem_cons_self x _)
      have hxr : ∀ w ∈ y :: rest', '\n' ∉ w := fun w hw => hx w (List.mem_cons_of_mem x hw)
      show splitNL (x ++ '\n' :: joinNL (y :: rest')) = x :: y :: rest'
      rw [splitNL_append_nl x _ hx0, ih hxr (by simp)]

lemma formatBatchPayload_eq_render (results : List ExecutionResult) :
    formatBatchPayload results = joinNL (results.map renderResultEntry) := rfl

/-- C2.  For every batch: the digest dispatched when the batch drains is
emitted exactly once, and (when no rendered entry contains an embedded
newline) splitting it on newlines yields exactly one line per completed
result — no duplicates, no omissions — in completion order, each line of
the form `[SUCCESS|FAILED] agent: response`. -/
theorem batch_digest_one_line_per_result
    (u : Nat) (regs : List (Nat × List Char × List Char))
    (completions : List (Nat × ExecutionResult))
    (hnd : (regs.map (·.1)).Nodup)
    (hne : regs ≠ [])
    (hlen : completions.length = regs.length)
    (hnl : ∀ c ∈ completions, '\n' ∉ renderResultEntry c.2) :
    (completeSeq (registerAll BMState.initial u regs) u completions).2
        = List.replicate (completions.length - 1) none
          ++ [some (formatBatchPayload (completions.map (·.2)))] ∧
    splitNL (formatBatchPayload (completions.map (·.2)))
        = (completions.map (·.2)).map renderResultEntry := by
  obtain ⟨-, h2, -⟩ := batchProtocol_spec u regs completions hnd hne hlen
  refine ⟨h2, ?_⟩
  rw [formatBatchPayload_eq_render]
  have hcne : completions ≠ [] := by
    intro h
    rw [h] at hlen
    exact hne (List.length_eq_zero.mp hlen.symm)
  refine splitNL_joinNL _ ?_ (by simpa using hcne)
  intro x hxm
  obtain ⟨r, hr, rfl⟩ := List.mem_map.mp hxm
  obtain ⟨c, hc, rfl⟩ := List.mem_map.mp hr
  exact hnl c hc

/-- Witness for `batch_digest_one_line_per_result`: one success and one
failure completing a two-dispatch batch produce a two-line digest in
completion order. -/
theorem batch_digest_one_line_per_result_witness :
    (completeSeq (registerAll BMState.initial 9
        [(1, "alpha".toList, "do-a".toList), (2, "beta".toList, "do-b".toList)]) 9
        [(2, ⟨"beta".toList, false, "bad-b".toList, some "E".toList⟩),
         (1, ⟨"alpha".toList, true, "ok-a".toList, none⟩)]).2
        = List.replicate 1 none
          ++ [some (formatBatchPayload
              [⟨"beta".toList, false, "bad-b".toList, some "E".toList⟩,
               ⟨"alpha".toList, true, "ok-a".toList, none⟩])] ∧
    splitNL (formatBatchPayload
        [⟨"beta".toList, false, "bad-b".toList, some "E".toList⟩,
         ⟨"alpha".toList, true, "ok-a".toList, none⟩])
        = [renderResultEntry ⟨"beta".toList, false, "bad-b".toList, some "E".toList⟩,
           renderResultEntry ⟨"alpha".toList, true, "ok-a".toList, none⟩] := by
  have h := batch_digest_one_line_per_result 9
    [(1, "alpha".toList, "do-a".toList), (2, "beta".toList, "do-b".toList)]
    [(2, ⟨"beta".toList, false, "bad-b".toList, some "E".toList⟩),
     (1, ⟨"alpha".toList, true, "ok-a".toList, none⟩)]
    (by decide) (by decide) (by decide) (by decide)
  exact ⟨by simpa using h.1, by simpa using h.2⟩

/-- C8.  A result reported against an already-sealed batch (no open batch
state) or an unknown batch id leaves the manager state unchanged and
dispatches nothing; `_complete_execution` returns normally (it is a total
function here, mirroring the early `return` in the source — no exception
reaches the caller). -/
theorem unknown_batch_result_dropped (st : BMState) (batchId : Nat)
    (result : ExecutionResult)
    (h : st.batchState = none ∨ ∃ b, st.batchState = some b ∧ b.batchId ≠ batchId) :
    completeExecution st batchId result = (st, none) := by
  rcases h with h | ⟨b, hb, hbne⟩
  · unfold completeExecution
    rw [h]
  · unfold completeExecution
    rw [hb]
    simp only []
    rw [if_pos hbne]

/-- Witness for `unknown_batch_result_dropped`: a result against a sealed
manager and a result against a mismatched batch id are both dropped. -/
theorem unknown_batch_result_dropped_witness :
    completeExecution ⟨[], none⟩ 3 ⟨"a".toList, true, "r".toList, none⟩
        = (⟨[], none⟩, none) ∧
    completeExecution ⟨[], some ⟨5, 1, []⟩⟩ 3 ⟨"a".toList, true, "r".toList, none⟩
        = (⟨[], some ⟨5, 1, []⟩⟩, none) :=
  ⟨unknown_batch_result_dropped _ 3 _ (Or.inl rfl),
   unknown_batch_result_dropped _ 3 _ (Or.inr ⟨_, rfl, by decide⟩)⟩

/-! ## Conversation chat view (`server/services/conversation/log.py`,
`ConversationLog.to_chat_messages`) -/

/-- `ChatMessage` (`server/models/chat.py`): role, content, optional
timestamp. -/
structure ChatMessage where
  role : List Char
  content : List Char
  timestamp : Option (List Char)
deriving Repr, DecidableEq

/-- One parsed log entry as produced by `ConversationLog.iter_entries`:
`(tag, timestamp, payload)`. -/
abbrev LogEntryTuple := List Char × List Char × List Char

/-- `ConversationLog.to_chat_messages`: walk the parsed entries; emit
`user` rows for `user_message` tags and `assistant` rows for `poke_reply`
tags; skip `wait` markers explicitly (orchestration metadata) and let any
other tag (such as `agent_message`) fall through the `if`/`elif` chain
without being emitted.  `timestamp or None` maps the empty string to
`none`. -/
def toChatMessages : List LogEntryTuple → List ChatMessage
  | [] => []
  | (tag, ts, payload) :: rest =>
    let normalizedTimestamp : Option (List Char) := if ts = [] then none else some ts
    if tag = "user_message".toList then
      ⟨"user".toList, payload, normalizedTimestamp⟩ :: toChatMessages rest
    else if tag = "poke_reply".toList then
      ⟨"assistant".toList, payload, normalizedTimestamp⟩ :: toChatMessages rest
    else if tag = "wait".toList then
      toChatMessages rest
    else
      toChatMessages rest

/-- The single chat row rendered for a `user_message` or `poke_reply`
entry. -/
def renderChatRow (e : LogEntryTuple) : ChatMessage :=
  if e.1 = "user_message".toList then
    ⟨"user".toList, e.2.2, if e.2.1 = [] then none else some e.2.1⟩
  else
    ⟨"assistant".toList, e.2.2, if e.2.1 = [] then none else some e.2.1⟩

/-- C10.  The chat-message view contains exactly one row per
`user_message` (role `user`) or `poke_reply` (role `assistant`) entry, in
log order; entries tagged `wait` or `agent_message` (or anything else)
never appear in it. -/
theorem chat_view_only_user_and_reply (entries : List LogEntryTuple) :
    toChatMessages entries
        = (entries.filter (fun e =>
            e.1 = "user_message".toList || e.1 = "poke_reply".toList)).map renderChatRow ∧
    ∀ m ∈ toChatMessages entries,
        m.role = "user".toList ∨ m.role = "assistant".toList := by
  have hmain : ∀ es : List LogEntryTuple,
      toChatMessages es
        = (es.filter (fun e =>
            e.1 = "user_message".toList || e.1 = "poke_reply".toList)).map renderChatRow := by
    intro es
    induction es with
    | nil => rfl
    | cons e rest ih =>
      obtain ⟨tag, ts, payload⟩ := e
      by_cases h1 : tag = "user_message".toList
      · simp_all [toChatMessages, renderChatRow, List.filter_cons]
      · by_cases h2 : tag = "poke_reply".toList
        · simp_all [toChatMessages, renderChatRow, List.filter_cons]
        · by_cases h3 : tag = "wait".toList
          · simp_all [toChatMessages, List.filter_cons]
          · simp_all [toChatMessages, List.filter_cons]
  refine ⟨hmain entries, ?_⟩
  intro m hm
  rw [hmain entries] at hm
  obtain ⟨e, he, rfl⟩ := List.mem_map.mp hm
  by_cases h1 : e.1 = "user_message".toList
  · left
    simp only [renderChatRow]
    rw [if_pos h1]
  · right
    simp only [renderChatRow]
    rw [if_neg h1]

/-! ## Tool-call extraction and argument parsing
(`execution_agent/runtime.py` `_extract_tool_calls` and
`interaction_agent/runtime.py` `_parse_tool_calls` / `_parse_tool_arguments`)

Decoded JSON / Python values are embedded as `PyVal`.  The standard-library
codec `json.loads` is external to the repository and enters as a parameter
`loads : String → Option PyVal`, `none` standing for `JSONDecodeError`.
-/

/-- A JSON-decodable Python value. -/
inductive PyVal where
  | vstr : String → PyVal
  | vnum : Int → PyVal
  | vbool : Bool → PyVal
  | vnull : PyVal
  | vlist : List PyVal → PyVal
  | vdict : List (String × PyVal) → PyVal
deriving Repr

/-- A raw tool call from an LLM response: `tool.get("id")`, the function
block's `name` (the execution runtime defaults a missing name to `""`; the
interaction runtime skips non-string or empty names, which the empty
string also represents here) and the function block's `arguments`
(`none` = key absent / JSON `null` at top level of the block). -/
structure RawToolCall where
  id : Option String
  name : String
  arguments : Option PyVal

/-- A tool call as normalised by the execution runtime. -/
structure ParsedToolCall where
  id : Option String
  name : String
  arguments : PyVal

/-- `ExecutionAgentRuntime._extract_tool_calls`: string arguments are
JSON-decoded; an empty string becomes `{}`; a `JSONDecodeError` silently
becomes `{}` as well; non-string arguments pass through; calls without a
name are dropped.  (`function.get("arguments", "")` supplies the `""`
default for a missing key.) -/
def extractToolCalls (loads : String → Option PyVal) :
    List RawToolCall → List ParsedToolCall
  | [] => []
  | tool :: rest =>
    let rawArgs := tool.arguments.getD (PyVal.vstr "")
    let args :=
      match rawArgs with
      | PyVal.vstr s =>
        if s = "" then PyVal.vdict []
        else
          match loads s with
          | some v => v
          | none => PyVal.vdict []
      | v => v
    let tailCalls := extractToolCalls loads rest
    if tool.name ≠ "" then ⟨tool.id, tool.name, args⟩ :: tailCalls else tailCalls

/-- One observation message appended by the execution runtime's tool loop
(`_format_tool_result`'s structured payload; JSON serialisation of the
content string is not modelled). -/
structure ExecToolMessage where
  callId : Option String
  name : String
  success : Bool
  arguments : PyVal
  payload : PyVal

/-- The per-round tool loop of `ExecutionAgentRuntime.execute` (the `for
tool_call in parsed_tool_calls` body): returns the observation messages
appended and the `tools_executed` names, in order.  `toolExec` stands for
`_execute_tool` (registry lookup plus invocation, exceptions already
converted to `(False, error)` pairs by the source). -/
def execRound (toolExec : String → PyVal → Bool × PyVal) :
    List ParsedToolCall → List ExecToolMessage × List String
  | [] => ([], [])
  | call :: rest =>
    let tail := execRound toolExec rest
    if call.name = "" then
      (⟨call.id, "<unknown>", false, call.arguments,
          PyVal.vstr "Tool call missing name; unable to execute."⟩ :: tail.1,
       tail.2)
    else
      let r := toolExec call.name call.arguments
      (⟨call.id, call.name, r.1, call.arguments, r.2⟩ :: tail.1,
       call.name :: tail.2)

/-- A tool call as normalised by the interaction runtime (`_ToolCall`). -/
structure IToolCall where
  identifier : Option String
  name : String
  arguments : List (String × PyVal)

/-- `InteractionAgentRuntime._parse_tool_arguments`: returns the argument
dictionary and an optional error text.  The source error strings embed the
exception text (`f"invalid json: {exc}"`); the embedding keeps the fixed
prefix only. -/
def parseToolArguments (loads : String → Option PyVal) :
    Option PyVal → List (String × PyVal) × Option String
  | none => ([], none)
  | some (PyVal.vdict d) => (d, none)
  | some (PyVal.vstr s) =>
    if pyStrip s.toList = [] then ([], none)
    else
      match loads s with
      | none => ([], some "invalid json")
      | some (PyVal.vdict d) => (d, none)
      | some _ => ([], some "decoded arguments were not an object")
  | some _ => ([], some "unsupported argument type")

/-- `InteractionAgentRuntime._parse_tool_calls`: skip calls without a
usable name; on an argument-parsing error keep the call but replace its
arguments with the `__invalid_arguments__` marker. -/
def interactionParseToolCalls (loads : String → Option PyVal) :
    List RawToolCall → List IToolCall
  | [] => []
  | raw :: rest =>
    let tail := interactionParseToolCalls loads rest
    if raw.name = "" then tail
    else
      let pr := parseToolArguments loads raw.arguments
      match pr.2 with
      | some err =>
        ⟨raw.id, raw.name, [("__invalid_arguments__", PyVal.vstr err)]⟩ :: tail
      | none => ⟨raw.id, raw.name, pr.1⟩ :: tail

/-- `InteractionAgentRuntime._execute_tool`: a call carrying the
`__invalid_arguments__` marker is rejected with a failed result and the
tool callable (`handleCall`, standing for `handle_tool_call` with its
exception wrapping) is never consulted. -/
def interactionExecuteTool
    (handleCall : String → List (String × PyVal) → Bool × Option PyVal)
    (call : IToolCall) : Bool × Option PyVal :=
  match call.arguments.lookup "__invalid_arguments__" with
  | some err => (false, some (PyVal.vdict [("error", err)]))
  | none => handleCall call.name call.arguments

/-- One observation appended by `_run_interaction_loop`'s tool loop:
`tool_call_id` is `tool_call.identifier or tool_call.name`. -/
structure IToolMessage where
  toolCallId : String
  name : String
  success : Bool
  payload : Option PyVal

/-- The `for tool_call in parsed_tool_calls` body of
`_run_interaction_loop`: execute each call and append one observation per
call (the `_LoopSummary` bookkeeping is not modelled). -/
def interactionRound
    (handleCall : String → List (String × PyVal) → Bool × Option PyVal) :
    List IToolCall → List IToolMessage
  | [] => []
  | call :: rest =>
    let res := interactionExecuteTool handleCall call
    let callId :=
      match call.identifier with
      | some i => if i = "" then call.name else i
      | none => call.name
    ⟨callId, call.name, res.1, res.2⟩ :: interactionRound handleCall rest

/-! ### C3 lemmas and theorems -/

lemma extractToolCalls_append (loads : String → Option PyVal)
    (xs ys : List RawToolCall) :
    extractToolCalls loads (xs ++ ys)
      = extractToolCalls loads xs ++ extractToolCalls loads ys := by
  induction xs with
  | nil => rfl
  | cons tool rest ih =>
    by_cases h : tool.name = ""
    · simp [extractToolCalls, h, ih]
    · simp [extractToolCalls, h, ih]

lemma interactionParseToolCalls_append (loads : String → Option PyVal)
    (xs ys : List RawToolCall) :
    interactionParseToolCalls loads (xs ++ ys)
      = interactionParseToolCalls loads xs ++ interactionParseToolCalls loads ys := by
  induction xs with
  | nil => rfl
  | cons raw rest ih =>
    by_cases h : raw.name = ""
    · simp [interactionParseToolCalls, h, ih]
    · simp only [List.cons_append, interactionParseToolCalls, ih]
      rw [if_neg h, if_neg h]
      cases (parseToolArguments loads raw.arguments).2 <;> simp [ih]

lemma interactionRound_length
    (handleCall : String → List (String × PyVal) → Bool × Option PyVal)
    (calls : List IToolCall) :
    (interactionRound handleCall calls).length = calls.length := by
  induction calls with
  | nil => rfl
  | cons call rest ih => simp [interactionRound, ih]

/-- C3 (amended).  A tool call whose string arguments fail to JSON-parse:
in the interaction agent's loop it is kept with the
`__invalid_arguments__` marker, its execution short-circuits to a failed
error observation without consulting the tool callable, and the loop still
processes every other call of the round; in the execution agent's loop the
parse failure is silent — the arguments are replaced by the empty object
and the tool is executed normally.  In neither loop does the failure abort
the round. -/
theorem tool_args_parse_failure_amended
    (loads : String → Option PyVal) (s : String) (badId : Option String) (nm : String)
    (hs : pyStrip s.toList ≠ [])
    (hbad : loads s = none) (hnm : nm ≠ "")
    (handleCall : String → List (String × PyVal) → Bool × Option PyVal)
    (toolExec : String → PyVal → Bool × PyVal)
    (pre post : List RawToolCall) :
    interactionParseToolCalls loads (pre ++ ⟨badId, nm, some (PyVal.vstr s)⟩ :: post)
        = interactionParseToolCalls loads pre
          ++ ⟨badId, nm, [("__invalid_arguments__", PyVal.vstr "invalid json")]⟩
             :: interactionParseToolCalls loads post ∧
    interactionExecuteTool handleCall
        ⟨badId, nm, [("__invalid_arguments__", PyVal.vstr "invalid json")]⟩
        = (false, some (PyVal.vdict [("error", PyVal.vstr "invalid json")])) ∧
    (∀ calls, (interactionRound handleCall calls).length = calls.length) ∧
    extractToolCalls loads (pre ++ ⟨badId, nm, some (PyVal.vstr s)⟩ :: post)
        = extractToolCalls loads pre
          ++ ⟨badId, nm, PyVal.vdict []⟩ :: extractToolCalls loads post ∧
    (execRound toolExec [⟨badId, nm, PyVal.vdict []⟩]).2 = [nm] := by
  have hsne : s ≠ "" := by
    intro h
    rw [h] at hs
    exact hs rfl
  refine ⟨?_, ?_, interactionRound_length handleCall, ?_, ?_⟩
  · rw [interactionParseToolCalls_append]
    congr 1
    simp only [interactionParseToolCalls]
    rw [if_neg hnm]
    simp only [parseToolArguments]
    rw [if_neg (by simpa using hs), hbad]
  · simp [interactionExecuteTool, List.lookup]
  · rw [extractToolCalls_append]
    congr 1
    simp only [extractToolCalls, Option.getD_some]
    rw [if_neg hsne, hbad]
    simp [hnm]
  · simp [execRound, hnm]

/-- Witness for `tool_args_parse_failure_amended` at a concrete unparseable
argument string. -/
theorem tool_args_parse_failure_amended_witness :
    interactionParseToolCalls (fun _ => none)
        [⟨some "c1", "send_email", some (PyVal.vstr "not json")⟩]
        = [⟨some "c1", "send_email", [("__invalid_arguments__", PyVal.vstr "invalid json")]⟩] ∧
    interactionExecuteTool (fun _ _ => (true, none))
        ⟨some "c1", "send_email", [("__invalid_arguments__", PyVal.vstr "invalid json")]⟩
        = (false, some (PyVal.vdict [("error", PyVal.vstr "invalid json")])) ∧
    (interactionRound (fun _ _ => (true, none))
        [⟨some "c1", "send_email", [("__invalid_arguments__", PyVal.vstr "invalid json")]⟩]).length
        = 1 ∧
    extractToolCalls (fun _ => none)
        [⟨some "c1", "send_email", some (PyVal.vstr "not json")⟩]
        = [⟨some "c1", "send_email", PyVal.vdict []⟩] ∧
    (execRound (fun _ _ => (true, PyVal.vstr "sent"))
        [⟨some "c1", "send_email", PyVal.vdict []⟩]).2 = ["send_email"] := by
  have h := tool_args_parse_failure_amended (fun _ => none) "not json" (some "c1")
    "send_email" (by decide) rfl (by decide) (fun _ _ => (true, none))
    (fun _ _ => (true, PyVal.vstr "sent")) [] []
  exact ⟨by simpa using h.1, h.2.1, h.2.2.1 _, by simpa using h.2.2.2.1, h.2.2.2.2⟩

/-- C3 counterexample: in the execution agent's loop an unparseable
arguments string does not produce an error observation — the call is kept
with empty arguments and the tool is executed (it lands in
`tools_executed` and its observation is an ordinary result). -/
theorem tool_args_parse_failure_counterexample :
    extractToolCalls (fun _ => none)
        [⟨some "c1", "send_email", some (PyVal.vstr "not json")⟩]
        = [⟨some "c1", "send_email", PyVal.vdict []⟩] ∧
    execRound (fun _ _ => (true, PyVal.vstr "sent"))
        (extractToolCalls (fun _ => none)
          [⟨some "c1", "send_email", some (PyVal.vstr "not json")⟩])
        = ([⟨some "c1", "send_email", true, PyVal.vdict [], PyVal.vstr "sent"⟩],
           ["send_email"]) :=
  ⟨rfl, rfl⟩

/-! ## Trigger service and scheduler failure handling
(`server/services/triggers/service.py`, `server/services/trigger_scheduler.py`)

Instants are `Int` seconds; `MISSED_TRIGGER_GRACE_PERIOD =
timedelta(minutes=5)` is `300`.  `parse_iso`/`to_storage_timestamp` are a
bijection between stored timestamps and instants and are dropped;
`astimezone` never changes an instant.  The dateutil rrule engine is
external: `rule.after(dt, inc=False)` enters as a parameter
`after : String → Int → Option Int` and `rule.after(dt, inc=True)` as
`afterInc`.  `created_at`/`updated_at` bookkeeping columns are dropped. -/

/-- One row of the `triggers` table (`TriggerRecord`). -/
structure TriggerRecord where
  id : Nat
  agentName : String
  payload : String
  startTime : Option Int
  nextTrigger : Option Int
  recurrenceRule : Option String
  timezone : String
  status : String
  lastError : Option String
deriving Repr, DecidableEq

/-- A column-assignment dict handed to `TriggerStore.update`: `none` means
the column is absent from the dict. -/
structure TriggerFields where
  payload : Option String := none
  startTime : Option (Option Int) := none
  nextTrigger : Option (Option Int) := none
  recurrenceRule : Option (Option String) := none
  timezone : Option String := none
  status : Option String := none
  lastError : Option (Option String) := none
deriving Repr, DecidableEq

/-- Python `if not fields`. -/
def fieldsEmpty (f : TriggerFields) : Bool :=
  f.payload.isNone && f.startTime.isNone && f.nextTrigger.isNone
    && f.recurrenceRule.isNone && f.timezone.isNone && f.status.isNone
    && f.lastError.isNone

/-- Apply a SQL `SET` of the present columns to one row. -/
def applyFields (r : TriggerRecord) (f : TriggerFields) : TriggerRecord :=
  { r with
    payload := f.payload.getD r.payload
    startTime := f.startTime.getD r.startTime
    nextTrigger := f.nextTrigger.getD r.nextTrigger
    recurrenceRule := f.recurrenceRule.getD r.recurrenceRule
    timezone := f.timezone.getD r.timezone
    status := f.status.getD r.status
    lastError := f.lastError.getD r.lastError }

/-- `TriggerStore.fetch_one`. -/
def fetchOne (store : List TriggerRecord) (triggerId : Nat) (agentName : String) :
    Option TriggerRecord :=
  store.find? (fun r => r.id = triggerId && r.agentName = agentName)

/-- `TriggerStore.update`: `UPDATE triggers SET ... WHERE id = ? AND
agent_name = ?`; an empty assignment dict is a no-op (`return False`). -/
def storeUpdate (store : List TriggerRecord) (triggerId : Nat) (agentName : String)
    (f : TriggerFields) : List TriggerRecord :=
  if fieldsEmpty f then store
  else
    store.map (fun r =>
      if r.id = triggerId && r.agentName = agentName then applyFields r f else r)

/-- Python `str.lower()` on the ASCII status strings (character-wise
lowering; `String.toLower` itself recurses on UTF-8 byte positions, which
does not unfold definitionally). -/
def pyLower (s : String) : String := ⟨s.data.map Char.toLower⟩

/-- `normalize_status`: clamp to `{active, paused, completed}` with
`active` as the default. -/
def normalizeStatus : Option String → String
  | none => "active"
  | some s =>
    if s = "" then "active"
    else
      let n := pyLower s
      if n = "active" || n = "paused" || n = "completed" then n else "active"

/-- `TriggerService.mark_as_completed`. -/
def markAsCompleted (store : List TriggerRecord) (triggerId : Nat) (agentName : String) :
    List TriggerRecord :=
  storeUpdate store triggerId agentName
    { status := some "completed", nextTrigger := some none, lastError := some none }

/-- `TriggerService.schedule_next_occurrence`:  without a recurrence rule
the trigger is completed; with one, `next_trigger` becomes the next
occurrence strictly after `fired_at` and `last_error` is reset to `NULL`
(when no occurrence remains the trigger is also completed). -/
def scheduleNextOccurrence (after : String → Int → Option Int)
    (store : List TriggerRecord) (trigger : TriggerRecord) (firedAt : Int) :
    List TriggerRecord :=
  match trigger.recurrenceRule with
  | none => markAsCompleted store trigger.id trigger.agentName
  | some rule =>
    let nextFire := after rule firedAt
    let f : TriggerFields :=
      { nextTrigger := some nextFire
        lastError := some none
        status := if nextFire = none then some "completed" else none }
    storeUpdate store trigger.id trigger.agentName f

/-- `TriggerService.record_failure`. -/
def recordFailure (store : List TriggerRecord) (trigger : TriggerRecord) (error : String) :
    List TriggerRecord :=
  storeUpdate store trigger.id trigger.agentName { lastError := some (some error) }

/-- `TriggerService.clear_next_fire`. -/
def clearNextFire (store : List TriggerRecord) (triggerId : Nat) (agentName : String) :
    List TriggerRecord :=
  storeUpdate store triggerId agentName { nextTrigger := some none }

/-- `TriggerScheduler._handle_failure`: record the failure, then either
re-arm (recurrence rule present) or clear the next fire time. -/
def handleFailure (after : String → Int → Option Int)
    (store : List TriggerRecord) (trigger : TriggerRecord) (firedAt : Int)
    (error : String) : List TriggerRecord :=
  let s1 := recordFailure store trigger error
  match trigger.recurrenceRule with
  | some _ => scheduleNextOccurrence after s1 trigger firedAt
  | none => clearNextFire s1 trigger.id trigger.agentName

/-- `TriggerService._compute_next_fire`: with a stored recurrence the next
occurrence at or after `now` (`rule.after(now, inc=True)`); otherwise the
requested start instant (the past-start warning is only a log). -/
def computeNextFire (afterInc : String → Int → Option Int)
    (storedRecurrence : Option String) (startDtLocal : Int) (now : Int) : Option Int :=
  match storedRecurrence with
  | some r => afterInc r now
  | none => some startDtLocal

/-- `TriggerService.update_trigger`.  `buildRec` stands for
`build_recurrence` (DTSTART embedding, external string/strftime work) and
`resolveKey` for `resolve_timezone(...).key`; both are only invoked on the
paths that change schedule inputs.  Arguments mirror the keyword
parameters; `startTimeU` is the already-parsed start instant. -/
def updateTrigger (afterInc : String → Int → Option Int)
    (buildRec : String → Int → String) (resolveKey : String → String)
    (store : List TriggerRecord) (now : Int)
    (triggerId : Nat) (agentName : String)
    (payloadU : Option String) (recurrenceRuleU : Option String)
    (startTimeU : Option Int) (timezoneNameU : Option String)
    (statusU : Option String) (lastErrorU : Option String) (clearError : Bool) :
    List TriggerRecord × Option TriggerRecord :=
  match fetchOne store triggerId agentName with
  | none => (store, none)
  | some existing =>
    let startReference := existing.startTime.getD now
    let startDtLocal := startTimeU.getD startReference
    let f1 : TriggerFields := { payload := payloadU }
    let normalizedStatus :=
      match statusU with
      | some st => normalizeStatus (some st)
      | none => existing.status
    let statusChangedToActive :=
      statusU.isSome && (normalizedStatus = "active") && (existing.status ≠ "active")
    let f2 := if statusU.isSome then { f1 with status := some normalizedStatus } else f1
    let f3 := if startTimeU.isSome then { f2 with startTime := some (some startDtLocal) } else f2
    let f4 :=
      if timezoneNameU.isSome then
        { f3 with timezone := some (resolveKey (timezoneNameU.getD existing.timezone)) }
      else f3
    let scheduleInputsChanged :=
      recurrenceRuleU.isSome || startTimeU.isSome || timezoneNameU.isSome
    let recurrenceSource :=
      match recurrenceRuleU with
      | some r => some r
      | none => existing.recurrenceRule
    let storedRecurrence :=
      if scheduleInputsChanged then recurrenceSource.map (fun r => buildRec r startDtLocal)
      else recurrenceSource
    let nextTriggerDt := existing.nextTrigger
    let shouldRecomputeSchedule :=
      scheduleInputsChanged
        || (statusChangedToActive &&
            (match nextTriggerDt with
             | none => true
             | some t => now - t > 300))
    let f5 :=
      if shouldRecomputeSchedule then
        let nextFire0 := computeNextFire afterInc storedRecurrence startDtLocal now
        let nextFire :=
          if storedRecurrence = none && recurrenceRuleU = none && startTimeU = none
              && statusChangedToActive
              && (match nextFire0 with | some t => t ≤ now | none => false) then
            some now
          else nextFire0
        let f5a := { f4 with nextTrigger := some nextFire }
        if scheduleInputsChanged then { f5a with recurrenceRule := some storedRecurrence }
        else f5a
      else if scheduleInputsChanged then { f4 with recurrenceRule := some storedRecurrence }
      else f4
    let f6 :=
      if clearError then { f5 with lastError := some none }
      else
        match lastErrorU with
        | some e => { f5 with lastError := some (some e) }
        | none => f5
    if fieldsEmpty f6 then (store, some existing)
    else
      let store' := storeUpdate store triggerId agentName f6
      (store', fetchOne store' triggerId agentName)

/-! ### Trigger lemmas and theorems (C4, C7) -/

lemma find?_map_update (store : List TriggerRecord) (tid : Nat) (ag : String)
    (f : TriggerFields) :
    ((store.map (fun r =>
        if r.id = tid && r.agentName = ag then applyFields r f else r)).find?
        (fun r => r.id = tid && r.agentName = ag))
      = (store.find? (fun r => r.id = tid && r.agentName = ag)).map
          (fun r => applyFields r f) := by
  induction store with
  | nil => rfl
  | cons r rest ih =>
    by_cases hp : (decide (r.id = tid) && decide (r.agentName = ag)) = true
    · have hpp : (decide ((applyFields r f).id = tid)
          && decide ((applyFields r f).agentName = ag)) = true := hp
      have e1 : List.find? (fun r => r.id = tid && r.agentName = ag)
          (applyFields r f :: rest.map (fun r =>
            if r.id = tid && r.agentName = ag then applyFields r f else r))
          = some (applyFields r f) := List.find?_cons_of_pos _ hpp
      have e2 : List.find? (fun r => r.id = tid && r.agentName = ag) (r :: rest)
          = some r := List.find?_cons_of_pos _ hp
      simp only [List.map_cons]
      rw [if_pos hp, e1, e2]
      rfl
    · have e1 : List.find? (fun r => r.id = tid && r.agentName = ag)
          (r :: rest.map (fun r =>
            if r.id = tid && r.agentName = ag then applyFields r f else r))
          = List.find? (fun r => r.id = tid && r.agentName = ag)
              (rest.map (fun r =>
                if r.id = tid && r.agentName = ag then applyFields r f else r)) :=
        List.find?_cons_of_neg _ hp
      have e2 : List.find? (fun r => r.id = tid && r.agentName = ag) (r :: rest)
          = List.find? (fun r => r.id = tid && r.agentName = ag) rest :=
        List.find?_cons_of_neg _ hp
      simp only [List.map_cons]
      rw [if_neg hp, e1, e2]
      exact ih

lemma fetchOne_storeUpdate (store : List TriggerRecord) (tid : Nat) (ag : String)
    (f : TriggerFields) (hf : fieldsEmpty f = false) :
    fetchOne (storeUpdate store tid ag f) tid ag
      = (fetchOne store tid ag).map (fun r => applyFields r f) := by
  simp only [storeUpdate, hf, Bool.false_eq_true, if_false, fetchOne]
  exact find?_map_update store tid ag f

/-- C4 evaluated on the code: after `_handle_failure` on a trigger with a
recurrence rule, `next_fire_time` is advanced to the next occurrence after
the fired time, but `last_error` ends up `NULL`: `record_failure` writes
it, then `schedule_next_occurrence` unconditionally resets `last_error` to
`None` in the same update batch. -/
theorem trigger_failure_recurring_advances_but_clears_error
    (after : String → Int → Option Int) (store : List TriggerRecord)
    (t : TriggerRecord) (rule : String) (firedAt : Int) (error : String)
    (hrec : t.recurrenceRule = some rule) :
    ∀ r', fetchOne (handleFailure after store t firedAt error) t.id t.agentName = some r' →
      r'.lastError = none ∧ r'.nextTrigger = after rule firedAt := by
  intro r' hr'
  have h1 : handleFailure after store t firedAt error
      = storeUpdate (recordFailure store t error) t.id t.agentName
          { nextTrigger := some (after rule firedAt)
            lastError := some none
            status := if after rule firedAt = none then some "completed" else none } := by
    unfold handleFailure scheduleNextOccurrence
    rw [hrec]
  rw [h1, fetchOne_storeUpdate _ _ _ _ (by cases h : after rule firedAt <;> simp [fieldsEmpty, h])]
    at hr'
  unfold recordFailure at hr'
  rw [fetchOne_storeUpdate _ _ _ _ (by simp [fieldsEmpty])] at hr'
  cases hfetch : fetchOne store t.id t.agentName with
  | none => rw [hfetch] at hr'; simp at hr'
  | some r0 =>
    rw [hfetch] at hr'
    simp only [Option.map_some', Option.some.injEq] at hr'
    subst hr'
    constructor
    · rfl
    · rfl

/-- Witness for `trigger_failure_recurring_advances_but_clears_error`: a
daily trigger that failed at instant 1000 is re-armed for 87400 with
`last_error` cleared. -/
theorem trigger_failure_recurring_witness :
    (fetchOne (handleFailure (fun _ t => some (t + 86400))
        [(⟨1, "poke", "check email", some 0, some 900, some "FREQ=DAILY", "UTC",
           "active", none⟩ : TriggerRecord)]
        ⟨1, "poke", "check email", some 0, some 900, some "FREQ=DAILY", "UTC",
           "active", none⟩
        1000 "boom") 1 "poke").map (fun r => (r.lastError, r.nextTrigger))
      = some (none, some 87400) := by
  have h := trigger_failure_recurring_advances_but_clears_error
    (fun _ t => some (t + 86400))
    [(⟨1, "poke", "check email", some 0, some 900, some "FREQ=DAILY", "UTC",
       "active", none⟩ : TriggerRecord)]
    ⟨1, "poke", "check email", some 0, some 900, some "FREQ=DAILY", "UTC",
       "active", none⟩
    "FREQ=DAILY" 1000 "boom" rfl
  obtain ⟨h1, h2⟩ := h
    ⟨1, "poke", "check email", some 0, some 87400, some "FREQ=DAILY", "UTC",
       "active", none⟩ rfl
  calc (fetchOne (handleFailure (fun _ t => some (t + 86400))
        [(⟨1, "poke", "check email", some 0, some 900, some "FREQ=DAILY", "UTC",
           "active", none⟩ : TriggerRecord)]
        ⟨1, "poke", "check email", some 0, some 900, some "FREQ=DAILY", "UTC",
           "active", none⟩
        1000 "boom") 1 "poke").map (fun r => (r.lastError, r.nextTrigger))
      = some ((⟨1, "poke", "check email", some 0, some 87400, some "FREQ=DAILY", "UTC",
           "active", none⟩ : TriggerRecord).lastError,
          (⟨1, "poke", "check email", some 0, some 87400, some "FREQ=DAILY", "UTC",
           "active", none⟩ : TriggerRecord).nextTrigger) := rfl
    _ = some (none, some 87400) := by rw [h1, h2]; norm_num

/-- C7.  Reactivating a paused recurring trigger via a status-only update:
if the stored `next_fire_time` is more than the 5-minute grace period in
the past, `next_fire_time` is recomputed as the rule's next occurrence at
or after `now` (`rule.after(now, inc=True)`); if it is within the grace
period it is kept unchanged — only the status column is written. -/
theorem paused_trigger_reactivation_grace
    (afterInc : String → Int → Option Int) (buildRec : String → Int → String)
    (resolveKey : String → String)
    (store : List TriggerRecord) (now : Int) (tid : Nat) (ag : String)
    (t : TriggerRecord) (rule : String) (tp : Int)
    (hfetch : fetchOne store tid ag = some t)
    (hpaused : t.status = "paused")
    (hrec : t.recurrenceRule = some rule)
    (hnt : t.nextTrigger = some tp) :
    (now - tp > 300 →
      (updateTrigger afterInc buildRec resolveKey store now tid ag
          none none none none (some "active") none false).2
        = some { t with status := "active", nextTrigger := afterInc rule now }) ∧
    (¬ now - tp > 300 →
      (updateTrigger afterInc buildRec resolveKey store now tid ag
          none none none none (some "active") none false).2
        = some { t with status := "active" }) := by
  obtain ⟨id0, agn, pl, st0, nt0, rr, tz, stat, le⟩ := t
  replace hpaused : stat = "paused" := hpaused
  replace hrec : rr = some rule := hrec
  replace hnt : nt0 = some tp := hnt
  subst hpaused hrec hnt
  constructor
  · intro h
    have hd : (decide (now - tp > 300)) = true := decide_eq_true h
    unfold updateTrigger
    rw [hfetch]
    simp [hd, fieldsEmpty, fetchOne_storeUpdate, hfetch, applyFields,
      computeNextFire, normalizeStatus, pyLower]
  · intro h
    have hd : (decide (now - tp > 300)) = false := decide_eq_false h
    unfold updateTrigger
    rw [hfetch]
    simp [hd, fieldsEmpty, fetchOne_storeUpdate, hfetch, applyFields,
      normalizeStatus, pyLower]

/-- Witness for `paused_trigger_reactivation_grace`: a trigger whose
stored fire time 100 is reactivated at `now = 1000` (900s late, beyond the
grace period) is recomputed; reactivated at `now = 300` (200s late, within
grace) it keeps the stored time. -/
theorem paused_trigger_reactivation_grace_witness :
    (updateTrigger (fun _ n => some (n + 10)) (fun r _ => r) (fun s => s)
        [⟨2, "poke", "p", none, some 100, some "FREQ=HOURLY", "UTC", "paused", none⟩]
        1000 2 "poke" none none none none (some "active") none false).2
      = some ⟨2, "poke", "p", none, some 1010, some "FREQ=HOURLY", "UTC", "active", none⟩ ∧
    (updateTrigger (fun _ n => some (n + 10)) (fun r _ => r) (fun s => s)
        [⟨2, "poke", "p", none, some 100, some "FREQ=HOURLY", "UTC", "paused", none⟩]
        300 2 "poke" none none none none (some "active") none false).2
      = some ⟨2, "poke", "p", none, some 100, some "FREQ=HOURLY", "UTC", "active", none⟩ := by
  constructor
  · have h := (paused_trigger_reactivation_grace (fun _ n => some (n + 10)) (fun r _ => r)
      (fun s => s)
      [⟨2, "poke", "p", none, some 100, some "FREQ=HOURLY", "UTC", "paused", none⟩]
      1000 2 "poke"
      ⟨2, "poke", "p", none, some 100, some "FREQ=HOURLY", "UTC", "paused", none⟩
      "FREQ=HOURLY" 100 rfl rfl rfl rfl).1 (by norm_num)
    simpa using h
  · have h := (paused_trigger_reactivation_grace (fun _ n => some (n + 10)) (fun r _ => r)
      (fun s => s)
      [⟨2, "poke", "p", none, some 100, some "FREQ=HOURLY", "UTC", "paused", none⟩]
      300 2 "poke"
      ⟨2, "poke", "p", none, some 100, some "FREQ=HOURLY", "UTC", "paused", none⟩
      "FREQ=HOURLY" 100 rfl rfl rfl rfl).2 (by norm_num)
    simpa using h

/-! ## Conversation summarizer
(`server/services/conversation/summarization/summarizer.py`)

The completion endpoint (`request_chat_completion`) is external and enters
as `endpoint : Nat → AttemptOutcome`, giving the outcome of the n-th call
made by `_call_megallm` (the prompt contents do not influence the claims).
`SummaryState.updated_at` is dropped (never read by the protocol). -/

/-- A `LogEntry` snapshot (`summarization/state.py`). -/
structure SumLogEntry where
  tag : String
  payload : String
  index : Int
  timestamp : Option String
deriving Repr, DecidableEq

/-- Persisted `SummaryState` (without `updated_at`). -/
structure SummaryState where
  summaryText : String
  lastIndex : Int
  unsummarizedEntries : List SumLogEntry
deriving Repr, DecidableEq

/-- `_collect_entries`: enumerate the parsed `(tag, timestamp, payload)`
stream into indexed `LogEntry` values (`timestamp or None`). -/
def collectEntriesAux (idx : Int) : List (String × String × String) → List SumLogEntry
  | [] => []
  | (tag, ts, payload) :: rest =>
    ⟨tag, payload, idx, if ts = "" then none else some ts⟩ :: collectEntriesAux (idx + 1) rest

/-- `_collect_entries` starting at index 0. -/
def collectEntries (raw : List (String × String × String)) : List SumLogEntry :=
  collectEntriesAux 0 raw

/-- `message.get("content")` of a choice. -/
structure MLMessage where
  content : Option String
deriving Repr, DecidableEq

/-- `choices[0].get("message")`. -/
structure MLChoice where
  message : Option MLMessage
deriving Repr, DecidableEq

/-- `response.get("choices") or []` (a missing key and an empty list
behave identically). -/
structure MLResponse where
  choices : List MLChoice
deriving Repr, DecidableEq

/-- Outcome of one `request_chat_completion` call: a response, a raised
`MegaLLMError`, or an unexpected exception. -/
inductive AttemptOutcome where
  | ok : MLResponse → AttemptOutcome
  | megaErr : String → AttemptOutcome
  | otherErr : String → AttemptOutcome
deriving Repr, DecidableEq

/-- The exception `_call_megallm` can raise. -/
inductive CallErr where
  | mega : String → CallErr
  | other : String → CallErr
deriving Repr, DecidableEq

/-- Python `str.strip()` lifted back to `String`. -/
def pyStripString (s : String) : String := ⟨pyStrip s.data⟩

/-- The body of one `_call_megallm` attempt: validate the response shape
and extract the stripped content; shape problems raise `MegaLLMError`. -/
def attemptOnce : AttemptOutcome → Except CallErr String
  | .ok resp =>
    match resp.choices.head? with
    | none => .error (.mega "MegaLLM response missing choices")
    | some choice =>
      let content := pyStripString ((choice.message.bind (fun m => m.content)).getD "")
      if content ≠ "" then .ok content
      else .error (.mega "MegaLLM response missing content")
  | .megaErr m => .error (.mega m)
  | .otherErr m => .error (.other m)

/-- `_call_megallm`: `for attempt in range(2)` — a `MegaLLMError` on the
first attempt is retried once; any failure of the second attempt, or an
unexpected exception on either, is raised.  Returns the result together
with the number of endpoint calls made. -/
def callMegallm (endpoint : Nat → AttemptOutcome) : Except CallErr String × Nat :=
  match attemptOnce (endpoint 0) with
  | .ok c => (.ok c, 1)
  | .error (.mega _) =>
    match attemptOnce (endpoint 1) with
    | .ok c => (.ok c, 2)
    | .error e2 => (.error e2, 2)
  | .error (.other m) => (.error (.other m), 1)

/-- The configuration values `summarize_conversation` reads. -/
structure SummSettings where
  summarizationEnabled : Bool
  threshold : Int
  tailSize : Int
deriving Repr, DecidableEq

/-- How one `summarize_conversation` run ends. -/
inductive SummOutcome where
  | returned : Bool → SummOutcome
  | raised : CallErr → SummOutcome
  | crashed : SummOutcome
deriving Repr, DecidableEq

/-- `summarize_conversation`.  `entriesRaw` is the log read before the
LLM call, `entriesAfterRaw` the re-read after it (they differ when the log
grew during the call).  The returned `SummaryState` is the state persisted
on disk after the run: `write_summary_state` executes only on the success
path, so on every other path the input state is returned unchanged.
`SummOutcome.crashed` marks the `batch[-1]` `IndexError`, unreachable
under the guards. -/
def summarizeConversation (settings : SummSettings)
    (entriesRaw entriesAfterRaw : List (String × String × String))
    (state : SummaryState) (endpoint : Nat → AttemptOutcome) :
    SummaryState × SummOutcome :=
  if ¬ settings.summarizationEnabled then (state, .returned false)
  else
    let entries := collectEntries entriesRaw
    let threshold := settings.threshold
    let tailSize := max settings.tailSize 0
    if threshold ≤ 0 then (state, .returned false)
    else
      let unsummarizedEntries := entries.filter (fun e => e.index > state.lastIndex)
      if (unsummarizedEntries.length : Int) < threshold + tailSize then
        (state, .returned false)
      else
        let batch := unsummarizedEntries.take threshold.toNat
        match batch.getLast? with
        | none => (state, .crashed)
        | some lastEntry =>
          let cutoffIndex := lastEntry.index
          match (callMegallm endpoint).1 with
          | .error e => (state, .raised e)
          | .ok summaryText =>
            let summaryBody := if summaryText ≠ "" then summaryText else state.summaryText
            let refreshedEntries := collectEntries entriesAfterRaw
            let remainingEntries := refreshedEntries.filter (fun e => e.index > cutoffIndex)
            ({ summaryText := summaryBody, lastIndex := cutoffIndex,
               unsummarizedEntries := remainingEntries }, .returned true)

/-! ### Summarizer lemmas -/

lemma collectEntriesAux_length (raw : List (String × String × String)) :
    ∀ i, (collectEntriesAux i raw).length = raw.length := by
  induction raw with
  | nil => intro i; rfl
  | cons x rest ih =>
    intro i
    obtain ⟨tag, ts, payload⟩ := x
    simp [collectEntriesAux, ih]

lemma collectEntriesAux_filter_all (raw : List (String × String × String)) :
    ∀ i c : Int, c < i →
      (collectEntriesAux i raw).filter (fun e => e.index > c) = collectEntriesAux i raw := by
  induction raw with
  | nil => intro i c _; rfl
  | cons x rest ih =>
    intro i c hc
    obtain ⟨tag, ts, payload⟩ := x
    simp only [collectEntriesAux, List.filter_cons]
    rw [if_pos (by simpa using hc)]
    rw [ih (i + 1) c (by omega)]

lemma collectEntriesAux_filter_drop (raw : List (String × String × String)) :
    ∀ i c : Int,
      (collectEntriesAux i raw).filter (fun e => e.index > c)
        = (collectEntriesAux i raw).drop ((c + 1 - i).toNat) := by
  induction raw with
  | nil => intro i c; simp [collectEntriesAux]
  | cons x rest ih =>
    intro i c
    obtain ⟨tag, ts, payload⟩ := x
    by_cases hc : c < i
    · rw [collectEntriesAux_filter_all _ i c hc]
      have : (c + 1 - i).toNat = 0 := by omega
      rw [this, List.drop_zero]
    · simp only [collectEntriesAux, List.filter_cons]
      rw [if_neg (by simpa using hc)]
      have hn : (c + 1 - i).toNat = (c + 1 - (i + 1)).toNat + 1 := by omega
      rw [ih (i + 1) c, hn, List.drop_succ_cons]

lemma collectEntriesAux_take_getLast (raw : List (String × String × String)) :
    ∀ (i : Int) (k : Nat), k < raw.length →
      (((collectEntriesAux i raw).take (k + 1)).getLast?).map (fun e => e.index)
        = some (i + k) := by
  induction raw with
  | nil =>
    intro i k hk
    simp at hk
  | cons x rest ih =>
    intro i k hk
    obtain ⟨tag, ts, payload⟩ := x
    cases k with
    | zero =>
      simp [collectEntriesAux]
    | succ k' =>
      have hk' : k' < rest.length := by simpa using Nat.lt_of_succ_lt_succ hk
      have htail := ih (i + 1) k' hk'
      simp only [collectEntriesAux, List.take_succ_cons]
      cases hl : (List.take (k' + 1) (collectEntriesAux (i + 1) rest)).getLast? with
      | none =>
        rw [hl] at htail
        simp at htail
      | some e =>
        rw [hl] at htail
        simp only [Option.map_some', Option.some.injEq] at htail
        rw [List.getLast?_cons, hl]
        simp only [Option.getD_some, Option.map_some', Option.some.injEq, htail]
        omega

lemma callMegallm_ok_ne_empty (endpoint : Nat → AttemptOutcome) (s : String)
    (h : (callMegallm endpoint).1 = .ok s) : s ≠ "" := by
  have haux : ∀ o t, attemptOnce o = .ok t → t ≠ "" := by
    intro o t ht
    cases o with
    | ok resp =>
      cases hh : resp.choices.head? with
      | none => simp [attemptOnce, hh] at ht
      | some choice =>
        simp only [attemptOnce, hh] at ht
        by_cases hc : pyStripString ((choice.message.bind (fun m => m.content)).getD "") ≠ ""
        · rw [if_pos hc] at ht
          cases ht
          exact hc
        · rw [if_neg hc] at ht
          cases ht
    | megaErr m => simp [attemptOnce] at ht
    | otherErr m => simp [attemptOnce] at ht
  unfold callMegallm at h
  cases h0 : attemptOnce (endpoint 0) with
  | ok c =>
    rw [h0] at h
    cases h
    exact haux _ _ h0
  | error e =>
    rw [h0] at h
    cases e with
    | mega m =>
      cases h1 : attemptOnce (endpoint 1) with
      | ok c =>
        rw [h1] at h
        cases h
        exact haux _ _ h1
      | error e2 => rw [h1] at h; cases h
    | other m => cases h

lemma batch_take_ne_nil (l : List SumLogEntry) (threshold tail : Int)
    (hth : 0 < threshold) (hc : threshold + max tail 0 ≤ (l.length : Int)) :
    l.take threshold.toNat ≠ [] := by
  intro hnil
  rcases List.take_eq_nil_iff.mp hnil with h | h
  · omega
  · rw [h] at hc
    simp at hc
    omega

/-- C9.  A `MegaLLMError` on the first completion call is retried exactly
once (a second endpoint call is made, and never a third); when the retry
also fails, `_call_megallm` raises the retry's error and
`summarize_conversation` ends without writing the summary state —
`summary_text` and `last_folded_index` are exactly as before the fold
started. -/
theorem summarizer_retry_once_atomic_on_error
    (endpoint : Nat → AttemptOutcome) (m : String)
    (h0 : attemptOnce (endpoint 0) = .error (.mega m)) :
    (callMegallm endpoint).2 = 2 ∧
    ∀ e2, attemptOnce (endpoint 1) = .error e2 →
      callMegallm endpoint = (.error e2, 2) ∧
      ∀ settings entriesRaw entriesAfterRaw state,
        (summarizeConversation settings entriesRaw entriesAfterRaw state endpoint).1
            = state ∧
        ((summarizeConversation settings entriesRaw entriesAfterRaw state endpoint).2
            = .returned false ∨
          (summarizeConversation settings entriesRaw entriesAfterRaw state endpoint).2
            = .raised e2) := by
  constructor
  · unfold callMegallm
    rw [h0]
    cases h1 : attemptOnce (endpoint 1) with
    | ok c => rfl
    | error e => rfl
  · intro e2 h1
    have hcall : callMegallm endpoint = (.error e2, 2) := by
      unfold callMegallm
      rw [h0, h1]
    refine ⟨hcall, ?_⟩
    intro settings er ea st
    simp only [summarizeConversation]
    by_cases he : ¬ settings.summarizationEnabled = true
    · rw [if_pos he]
      exact ⟨rfl, Or.inl rfl⟩
    · rw [if_neg he]
      by_cases ht : settings.threshold ≤ 0
      · rw [if_pos ht]
        exact ⟨rfl, Or.inl rfl⟩
      · rw [if_neg ht]
        by_cases hc : ((((collectEntries er).filter
            (fun e => e.index > st.lastIndex)).length : Int)
              < settings.threshold + max settings.tailSize 0)
        · rw [if_pos hc]
          exact ⟨rfl, Or.inl rfl⟩
        · rw [if_neg hc]
          have hbne := batch_take_ne_nil
            ((collectEntries er).filter (fun e => e.index > st.lastIndex))
            settings.threshold settings.tailSize (by omega) (by omega)
          cases hlast : (((collectEntries er).filter
              (fun e => e.index > st.lastIndex)).take settings.threshold.toNat).getLast? with
          | none => exact absurd (List.getLast?_eq_none_iff.mp hlast) hbne
          | some le =>
            simp only [hlast]
            have hcall1 : (callMegallm endpoint).1 = .error e2 := by rw [hcall]
            simp only [hcall1]
            exact ⟨trivial, Or.inr trivial⟩

/-- Witness for `summarizer_retry_once_atomic_on_error`: an endpoint that
is down for both attempts; a seven-entry transcript that would otherwise
fold is left untouched and the error surfaces. -/
theorem summarizer_retry_once_witness :
    (callMegallm (fun _ => .megaErr "down")).2 = 2 ∧
    callMegallm (fun _ => .megaErr "down") = (.error (.mega "down"), 2) ∧
    (summarizeConversation ⟨true, 5, 2⟩
        [("user_message", "", "m1"), ("poke_reply", "", "m2"), ("user_message", "", "m3"),
         ("poke_reply", "", "m4"), ("user_message", "", "m5"), ("poke_reply", "", "m6"),
         ("user_message", "", "m7")]
        [("user_message", "", "m1"), ("poke_reply", "", "m2"), ("user_message", "", "m3"),
         ("poke_reply", "", "m4"), ("user_message", "", "m5"), ("poke_reply", "", "m6"),
         ("user_message", "", "m7")]
        ⟨"", -1, []⟩ (fun _ => .megaErr "down")).1 = ⟨"", -1, []⟩ ∧
    (summarizeConversation ⟨true, 5, 2⟩
        [("user_message", "", "m1"), ("poke_reply", "", "m2"), ("user_message", "", "m3"),
         ("poke_reply", "", "m4"), ("user_message", "", "m5"), ("poke_reply", "", "m6"),
         ("user_message", "", "m7")]
        [("user_message", "", "m1"), ("poke_reply", "", "m2"), ("user_message", "", "m3"),
         ("poke_reply", "", "m4"), ("user_message", "", "m5"), ("poke_reply", "", "m6"),
         ("user_message", "", "m7")]
        ⟨"", -1, []⟩ (fun _ => .megaErr "down")).2 = .raised (.mega "down") := by
  have h := summarizer_retry_once_atomic_on_error (fun _ => .megaErr "down") "down" rfl
  obtain ⟨ha, hb⟩ := h
  obtain ⟨hc, hd⟩ := hb (.mega "down") rfl
  refine ⟨ha, hc, (hd ⟨true, 5, 2⟩ _ _ ⟨"", -1, []⟩).1, by decide⟩

/-- C5.  With summarization enabled, `threshold = 5`, `tail_size = 2`:
seven entries on an empty summary state trigger exactly one fold, folding
the first five entries (`last_folded_index` becomes 4, the index of the
fifth entry), leaving the last two unfolded; an immediate second run is a
no-op.  Generally (for a successful completion call) a fold runs whenever
the unfolded-entry count exceeds `threshold + tail_size`. -/
theorem summarization_threshold_scenario
    (entries7 : List (String × String × String)) (h7 : entries7.length = 7)
    (endpoint : Nat → AttemptOutcome) (s : String)
    (hok : (callMegallm endpoint).1 = .ok s) :
    summarizeConversation ⟨true, 5, 2⟩ entries7 entries7 ⟨"", -1, []⟩ endpoint
        = (⟨s, 4, (collectEntries entries7).drop 5⟩, .returned true) ∧
    ((collectEntries entries7).drop 5).length = 2 ∧
    summarizeConversation ⟨true, 5, 2⟩ entries7 entries7
        ⟨s, 4, (collectEntries entries7).drop 5⟩ endpoint
      = (⟨s, 4, (collectEntries entries7).drop 5⟩, .returned false) ∧
    (∀ settings entriesRaw entriesAfterRaw state,
        settings.summarizationEnabled = true →
        0 < settings.threshold →
        settings.threshold + max settings.tailSize 0
            < (((collectEntries entriesRaw).filter
                (fun e => e.index > state.lastIndex)).length : Int) →
        (summarizeConversation settings entriesRaw entriesAfterRaw state endpoint).2
          = .returned true) := by
  have hsne := callMegallm_ok_ne_empty endpoint s hok
  have hlen : (collectEntries entries7).length = 7 := by
    rw [collectEntries, collectEntriesAux_length, h7]
  have hfilterAll : (collectEntries entries7).filter (fun e => e.index > (-1 : Int))
      = collectEntries entries7 :=
    collectEntriesAux_filter_all entries7 0 (-1) (by norm_num)
  have hdrop : (collectEntries entries7).filter (fun e => e.index > (4 : Int))
      = (collectEntries entries7).drop 5 := by
    have h := collectEntriesAux_filter_drop entries7 0 4
    rw [collectEntries]
    simpa using h
  have hdlen : ((collectEntries entries7).drop 5).length = 2 := by
    rw [List.length_drop, hlen]
  have hlast : (((collectEntries entries7).filter
      (fun e => e.index > (-1 : Int))).take (5 : Int).toNat).getLast?.map
        (fun e => e.index) = some 4 := by
    rw [hfilterAll]
    have h := collectEntriesAux_take_getLast entries7 0 4 (by omega)
    rw [collectEntries]
    simpa using h
  obtain ⟨le, hle, hlei⟩ := Option.map_eq_some'.mp hlast
  have hfull : summarizeConversation ⟨true, 5, 2⟩ entries7 entries7 ⟨"", -1, []⟩ endpoint
      = (⟨s, 4, (collectEntries entries7).drop 5⟩, .returned true) := by
    simp only [summarizeConversation]
    rw [if_neg (by simp)]
    rw [if_neg (by norm_num)]
    rw [if_neg (by rw [hfilterAll, hlen]; decide)]
    simp only [hle, hok]
    rw [if_pos hsne, hlei, hdrop]
  refine ⟨hfull, hdlen, ?_, ?_⟩
  · simp only [summarizeConversation]
    rw [if_neg (by simp)]
    rw [if_neg (by norm_num)]
    rw [if_pos (by rw [hdrop, hdlen]; decide)]
  · intro settings er ea st hen hth hcount
    simp only [summarizeConversation]
    rw [if_neg (by simp [hen])]
    rw [if_neg (by omega)]
    rw [if_neg (by omega)]
    have hbne := batch_take_ne_nil
      ((collectEntries er).filter (fun e => e.index > st.lastIndex))
      settings.threshold settings.tailSize (by omega) (by omega)
    cases hlast2 : (((collectEntries er).filter
        (fun e => e.index > st.lastIndex)).take settings.threshold.toNat).getLast? with
    | none => exact absurd (List.getLast?_eq_none_iff.mp hlast2) hbne
    | some le2 =>
      simp only [hlast2, hok]

/-- Witness for `summarization_threshold_scenario` on seven concrete
entries and an endpoint returning content `SUMMARY`. -/
theorem summarization_threshold_scenario_witness :
    summarizeConversation ⟨true, 5, 2⟩
        [("user_message", "", "m1"), ("poke_reply", "", "m2"), ("user_message", "", "m3"),
         ("poke_reply", "", "m4"), ("user_message", "", "m5"), ("poke_reply", "", "m6"),
         ("user_message", "", "m7")]
        [("user_message", "", "m1"), ("poke_reply", "", "m2"), ("user_message", "", "m3"),
         ("poke_reply", "", "m4"), ("user_message", "", "m5"), ("poke_reply", "", "m6"),
         ("user_message", "", "m7")]
        ⟨"", -1, []⟩ (fun _ => .ok ⟨[⟨some ⟨some "SUMMARY"⟩⟩]⟩)
      = (⟨"SUMMARY", 4,
          (collectEntries
            [("user_message", "", "m1"), ("poke_reply", "", "m2"), ("user_message", "", "m3"),
             ("poke_reply", "", "m4"), ("user_message", "", "m5"), ("poke_reply", "", "m6"),
             ("user_message", "", "m7")]).drop 5⟩, .returned true) ∧
    ((collectEntries
        [("user_message", "", "m1"), ("poke_reply", "", "m2"), ("user_message", "", "m3"),
         ("poke_reply", "", "m4"), ("user_message", "", "m5"), ("poke_reply", "", "m6"),
         ("user_message", "", "m7")]).drop 5).length = 2 := by
  have h := summarization_threshold_scenario
    [("user_message", "", "m1"), ("poke_reply", "", "m2"), ("user_message", "", "m3"),
     ("poke_reply", "", "m4"), ("user_message", "", "m5"), ("poke_reply", "", "m6"),
     ("user_message", "", "m7")]
    (by decide) (fun _ => .ok ⟨[⟨some ⟨some "SUMMARY"⟩⟩]⟩) "SUMMARY" rfl
  exact ⟨h.1, h.2.1⟩

/-! ## Conversation log encoding and parsing
(`server/services/conversation/log.py`)

All string work is on `List Char`.  `html.escape(s, quote=False)` is the
stdlib's three sequential replaces; `html.unescape` is modelled restricted
to the three named entities `escape` emits (`amp`, `lt`, `gt`) — the full
HTML5 entity table is stdlib behaviour the log format never produces.
Python's `\w` is modelled as ASCII alphanumeric plus underscore, and
`str.strip`/`str.splitlines` over their ASCII character classes. -/

/-- `payload.replace("\r\n", "\n")` (leftmost, non-overlapping). -/
def normCRLF : List Char → List Char
  | [] => []
  | '\r' :: '\n' :: rest => '\n' :: normCRLF rest
  | c :: rest => c :: normCRLF rest

/-- `.replace("\r", "\n")`. -/
def normCR : List Char → List Char
  | [] => []
  | '\r' :: rest => '\n' :: normCR rest
  | c :: rest => c :: normCR rest

/-- `.replace("\n", "\\n")`. -/
def nlToEsc : List Char → List Char
  | [] => []
  | '\n' :: rest => '\\' :: 'n' :: nlToEsc rest
  | c :: rest => c :: nlToEsc rest

/-- `.replace("\\n", "\n")` (leftmost, non-overlapping). -/
def escToNl : List Char → List Char
  | [] => []
  | '\\' :: 'n' :: rest => '\n' :: escToNl rest
  | c :: rest => c :: escToNl rest

/-- `.replace("&", "&amp;")`. -/
def repAmp : List Char → List Char
  | [] => []
  | '&' :: rest => '&' :: 'a' :: 'm' :: 'p' :: ';' :: repAmp rest
  | c :: rest => c :: repAmp rest

/-- `.replace("<", "&lt;")`. -/
def repLt : List Char → List Char
  | [] => []
  | '<' :: rest => '&' :: 'l' :: 't' :: ';' :: repLt rest
  | c :: rest => c :: repLt rest

/-- `.replace(">", "&gt;")`. -/
def repGt : List Char → List Char
  | [] => []
  | '>' :: rest => '&' :: 'g' :: 't' :: ';' :: repGt rest
  | c :: rest => c :: repGt rest

/-- `html.escape(s, quote=False)`: the three replaces in source order. -/
def htmlEscape (s : List Char) : List Char := repGt (repLt (repAmp s))

/-- `html.unescape`, restricted to the entities `escape` emits. -/
def htmlUnescape : List Char → List Char
  | [] => []
  | '&' :: 'a' :: 'm' :: 'p' :: ';' :: rest => '&' :: htmlUnescape rest
  | '&' :: 'l' :: 't' :: ';' :: rest => '<' :: htmlUnescape rest
  | '&' :: 'g' :: 't' :: ';' :: rest => '>' :: htmlUnescape rest
  | c :: rest => c :: htmlUnescape rest

/-- `_encode_payload`: normalise line endings, escape newlines, then
HTML-escape. -/
def encodePayload (payload : List Char) : List Char :=
  htmlEscape (nlToEsc (normCR (normCRLF payload)))

/-- `_decode_payload`: unescape entities, then restore newlines. -/
def decodePayload (payload : List Char) : List Char :=
  escToNl (htmlUnescape payload)

/-- `_default_formatter`: `<{tag} timestamp="{timestamp}">{encoded}</{tag}>`
plus the trailing newline written by `_append`. -/
def defaultFormatter (tag timestamp payload : List Char) : List Char :=
  '<' :: tag ++ ' ' :: "timestamp=".toList ++ '"' :: timestamp
    ++ '"' :: '>' :: encodePayload payload ++ '<' :: '/' :: tag ++ ['>', '\n']

/-- Python `str.find(c)` (`none` = `-1`). -/
def findCharIdx (c : Char) (s : List Char) : Option Nat := s.findIdx? (· = c)

/-- Python `str.rfind(c)`. -/
def rfindCharIdx (c : Char) (s : List Char) : Option Nat :=
  (findCharIdx c s.reverse).map (fun i => s.length - 1 - i)

/-- Whether the two-character pattern `ab` occurs (`"ab" in s`). -/
def containsSub2 (a b : Char) : List Char → Bool
  | x :: y :: rest => (x = a && y = b) || containsSub2 a b (y :: rest)
  | _ => false

/-- Python `str.rfind("ab")`: index of the last occurrence. -/
def rfindSub2Aux (a b : Char) : List Char → Nat → Option Nat → Option Nat
  | x :: y :: rest, i, best =>
    rfindSub2Aux a b (y :: rest) (i + 1) (if x = a && y = b then some i else best)
  | _, _, best => best

/-- `str.rfind("ab")` from position 0. -/
def rfindSub2 (a b : Char) (s : List Char) : Option Nat := rfindSub2Aux a b s 0 none

/-- Python slice `s[a:b]` (for `0 ≤ a`, `b` within range). -/
def pySlice (s : List Char) (a b : Nat) : List Char := (s.drop a).take (b - a)

/-- `content.split(" ", 1)` when a space is present. -/
def splitSpace1 (s : List Char) : List Char × List Char :=
  let pre := s.takeWhile (fun c => c ≠ ' ')
  (pre, (s.drop pre.length).drop 1)

/-- `\w` of `_ATTR_PATTERN` (ASCII view). -/
def isWordChar (c : Char) : Bool := c.isAlphanum || c = '_'

/-- Try to match `(\w+)\s*=\s*"([^"]*)"` at the head of `s`, returning the
name, the value and the unconsumed remainder. -/
def tryAttr (s : List Char) : Option (List Char × List Char × List Char) :=
  let name := s.takeWhile isWordChar
  if name = [] then none
  else
    let r1 := s.drop name.length
    let r2 := r1.dropWhile isPySpace
    match r2 with
    | '=' :: r3 =>
      let r4 := r3.dropWhile isPySpace
      match r4 with
      | '"' :: r5 =>
        let v := r5.takeWhile (fun c => c ≠ '"')
        match r5.drop v.length with
        | '"' :: r6 => some (name, v, r6)
        | _ => none
      | _ => none
    | _ => none

/-- `_ATTR_PATTERN.finditer`: scan left to right, matches are
non-overlapping (fuel-driven; one unit of fuel per character suffices
because every match consumes at least its one-character name). -/
def attrScanAux : Nat → List Char → List (List Char × List Char)
  | _, [] => []
  | 0, _ :: _ => []
  | fuel + 1, c :: rest =>
    match tryAttr (c :: rest) with
    | some (n, v, rem) => (n, v) :: attrScanAux fuel rem
    | none => attrScanAux fuel rest

/-- All attribute matches of `s`. -/
def attrScan (s : List Char) : List (List Char × List Char) :=
  attrScanAux s.length s

/-- The dict comprehension plus `.get("timestamp", "")`: later duplicate
names overwrite earlier ones, so the last match wins. -/
def attrGetLast (attrs : List (List Char × List Char)) (key : List Char) : List Char :=
  match attrs.reverse.find? (fun kv => kv.1 = key) with
  | some kv => kv.2
  | none => []

/-- `ConversationLog._parse_line`. -/
def parseLine (line : List Char) : Option (List Char × List Char × List Char) :=
  let stripped := pyStrip line
  if ¬ stripped.head? = some '<' then none
  else if ¬ containsSub2 '<' '/' stripped then none
  else
    match findCharIdx '>' stripped with
    | none => none
    | some openEnd =>
      let openTagContent := pySlice stripped 1 openEnd
      let split :=
        if openTagContent.contains ' ' then splitSpace1 openTagContent
        else (openTagContent, [])
      let tag := split.1
      let attrString := split.2
      match rfindSub2 '<' '/' stripped, rfindCharIdx '>' stripped with
      | some closeStart, some closeEnd =>
        let closingTag := pySlice stripped (closeStart + 2) closeEnd
        if closingTag ≠ tag then none
        else
          let payload := pySlice stripped (openEnd + 1) closeStart
          let timestamp := attrGetLast (attrScan attrString) "timestamp".toList
          some (tag, timestamp, decodePayload payload)
      | _, _ => none

/-- The line-boundary characters of Python `str.splitlines`. -/
def isLineBreak (c : Char) : Bool :=
  c = '\n' || c = '\r' || c = '\x0b' || c = '\x0c'
    || c = '\x1c' || c = '\x1d' || c = '\x1e' || c = '\x85'
    || c = '\u2028' || c = '\u2029'

/-- Python `str.splitlines` (no trailing empty line; `\r\n` is one
boundary). -/
def splitlinesAux : List Char → List Char → List (List Char)
  | [], acc => [acc.reverse]
  | '\r' :: '\n' :: rest, acc =>
    if rest.isEmpty then [acc.reverse] else acc.reverse :: splitlinesAux rest []
  | c :: rest, acc =>
    if isLineBreak c then
      if rest.isEmpty then [acc.reverse] else acc.reverse :: splitlinesAux rest []
    else splitlinesAux rest (c :: acc)

/-- `str.splitlines`. -/
def splitlinesPy (s : List Char) : List (List Char) :=
  if s.isEmpty then [] else splitlinesAux s []

/-- `ConversationLog.iter_entries`: split the file into lines and keep
the parseable ones. -/
def iterEntries (file : List Char) : List (List Char × List Char × List Char) :=
  (splitlinesPy file).filterMap parseLine

/-- `ConversationLog._append` with the default formatter: append one
formatted line to the file. -/
def appendEntry (file : List Char) (tag timestamp payload : List Char) : List Char :=
  file ++ defaultFormatter tag timestamp payload

/-! ### Encode/decode round-trip lemmas -/

lemma repAmp_cons_ne (c : Char) (r : List Char) (hc : c ≠ '&') :
    repAmp (c :: r) = c :: repAmp r := by
  simp [repAmp, hc]

lemma repLt_cons_ne (c : Char) (r : List Char) (hc : c ≠ '<') :
    repLt (c :: r) = c :: repLt r := by
  simp [repLt, hc]

lemma repGt_cons_ne (c : Char) (r : List Char) (hc : c ≠ '>') :
    repGt (c :: r) = c :: repGt r := by
  simp [repGt, hc]

lemma nlToEsc_cons_ne (c : Char) (r : List Char) (hc : c ≠ '\n') :
    nlToEsc (c :: r) = c :: nlToEsc r := by
  simp [nlToEsc, hc]

lemma escToNl_cons_ne (c : Char) (r : List Char) (hc : c ≠ '\\') :
    escToNl (c :: r) = c :: escToNl r := by
  simp [escToNl, hc]

lemma escToNl_bs_ne (x : List Char) (hx : x.head? ≠ some 'n') :
    escToNl ('\\' :: x) = '\\' :: escToNl x := by
  cases x with
  | nil => rfl
  | cons e x' =>
    have he : e ≠ 'n' := by
      intro h
      exact hx (by rw [h]; rfl)
    simp [escToNl, he]

lemma htmlUnescape_cons_ne (c : Char) (r : List Char) (hc : c ≠ '&') :
    htmlUnescape (c :: r) = c :: htmlUnescape r := by
  simp [htmlUnescape, hc]

lemma repLt_append (xs ys : List Char) : repLt (xs ++ ys) = repLt xs ++ repLt ys := by
  induction xs with
  | nil => rfl
  | cons c xs' ih =>
    by_cases hc : c = '<'
    · subst hc
      simp [repLt, ih]
    · rw [List.cons_append, repLt_cons_ne c _ hc, repLt_cons_ne c _ hc, ih, List.cons_append]

lemma repGt_append (xs ys : List Char) : repGt (xs ++ ys) = repGt xs ++ repGt ys := by
  induction xs with
  | nil => rfl
  | cons c xs' ih =>
    by_cases hc : c = '>'
    · subst hc
      simp [repGt, ih]
    · rw [List.cons_append, repGt_cons_ne c _ hc, repGt_cons_ne c _ hc, ih, List.cons_append]

/-- The per-character view of `html.escape(s, quote=False)`. -/
def escChar (c : Char) : List Char :=
  if c = '&' then "&amp;".toList
  else if c = '<' then "&lt;".toList
  else if c = '>' then "&gt;".toList
  else [c]

lemma htmlEscape_cons (c : Char) (s : List Char) :
    htmlEscape (c :: s) = escChar c ++ htmlEscape s := by
  by_cases h1 : c = '&'
  · subst h1
    show repGt (repLt (repAmp ('&' :: s))) = _
    rw [show repAmp ('&' :: s) = ['&', 'a', 'm', 'p', ';'] ++ repAmp s from rfl]
    rw [repLt_append, repGt_append]
    rfl
  · by_cases h2 : c = '<'
    · subst h2
      show repGt (repLt (repAmp ('<' :: s))) = _
      rw [repAmp_cons_ne _ _ h1]
      rw [show repLt ('<' :: repAmp s) = ['&', 'l', 't', ';'] ++ repLt (repAmp s) from rfl]
      rw [repGt_append]
      rfl
    · by_cases h3 : c = '>'
      · subst h3
        show repGt (repLt (repAmp ('>' :: s))) = _
        rw [repAmp_cons_ne _ _ h1, repLt_cons_ne _ _ h2]
        rw [show repGt ('>' :: repLt (repAmp s)) = ['&', 'g', 't', ';'] ++ repGt (repLt (repAmp s)) from rfl]
        rfl
      · show repGt (repLt (repAmp (c :: s))) = _
        rw [repAmp_cons_ne _ _ h1, repLt_cons_ne _ _ h2, repGt_cons_ne _ _ h3]
        simp [escChar, h1, h2, h3, htmlEscape]

lemma htmlUnescape_htmlEscape (s : List Char) : htmlUnescape (htmlEscape s) = s := by
  induction s with
  | nil => rfl
  | cons c s' ih =>
    rw [htmlEscape_cons]
    by_cases h1 : c = '&'
    · subst h1
      show htmlUnescape ('&' :: 'a' :: 'm' :: 'p' :: ';' :: htmlEscape s') = _
      rw [show htmlUnescape ('&' :: 'a' :: 'm' :: 'p' :: ';' :: htmlEscape s')
          = '&' :: htmlUnescape (htmlEscape s') from rfl, ih]
    · by_cases h2 : c = '<'
      · subst h2
        show htmlUnescape ('&' :: 'l' :: 't' :: ';' :: htmlEscape s') = _
        rw [show htmlUnescape ('&' :: 'l' :: 't' :: ';' :: htmlEscape s')
            = '<' :: htmlUnescape (htmlEscape s') from rfl, ih]
      · by_cases h3 : c = '>'
        · subst h3
          show htmlUnescape ('&' :: 'g' :: 't' :: ';' :: htmlEscape s') = _
          rw [show htmlUnescape ('&' :: 'g' :: 't' :: ';' :: htmlEscape s')
              = '>' :: htmlUnescape (htmlEscape s') from rfl, ih]
        · rw [show escChar c = [c] from by simp [escChar, h1, h2, h3]]
          rw [List.singleton_append, htmlUnescape_cons_ne c _ h1, ih]

lemma containsSub2_tail (a b c : Char) (r : List Char)
    (h : containsSub2 a b (c :: r) = false) : containsSub2 a b r = false := by
  cases r with
  | nil => rfl
  | cons y r' =>
    have := h
    simp only [containsSub2, Bool.or_eq_false_iff] at this
    exact this.2

lemma nlToEsc_head_ne_n (rest : List Char) (h : rest.head? ≠ some 'n') :
    (nlToEsc rest).head? ≠ some 'n' := by
  cases rest with
  | nil => simp [nlToEsc]
  | cons d r' =>
    by_cases hd : d = '\n'
    · subst hd
      simp [nlToEsc]
    · rw [nlToEsc_cons_ne d _ hd]
      simpa using h

lemma escToNl_nlToEsc (p : List Char) (h : containsSub2 '\\' 'n' p = false) :
    escToNl (nlToEsc p) = p := by
  induction p with
  | nil => rfl
  | cons c rest ih =>
    have hrest : containsSub2 '\\' 'n' rest = false := containsSub2_tail _ _ _ _ h
    by_cases h1 : c = '\n'
    · subst h1
      show escToNl (nlToEsc ('\n' :: rest)) = _
      rw [show nlToEsc ('\n' :: rest) = '\\' :: 'n' :: nlToEsc rest from rfl]
      rw [show escToNl ('\\' :: 'n' :: nlToEsc rest) = '\n' :: escToNl (nlToEsc rest) from rfl]
      rw [ih hrest]
    · by_cases h2 : c = '\\'
      · subst h2
        rw [nlToEsc_cons_ne _ _ h1]
        have hhead : rest.head? ≠ some 'n' := by
          cases rest with
          | nil => simp
          | cons d r' =>
            simp only [containsSub2, Bool.or_eq_false_iff] at h
            have hd : ¬ (decide ('\\' = '\\') && decide (d = 'n')) = true := by
              simpa using h.1
            simp only [decide_True, Bool.true_and, decide_eq_true_eq] at hd
            simpa using hd
        rw [escToNl_bs_ne _ (nlToEsc_head_ne_n rest hhead), ih hrest]
      · rw [nlToEsc_cons_ne _ _ h1, escToNl_cons_ne _ _ h2, ih hrest]

lemma normCRLF_cons_ne (c : Char) (r : List Char) (hc : c ≠ '\r') :
    normCRLF (c :: r) = c :: normCRLF r := by
  simp [normCRLF, hc]

lemma normCRLF_id (p : List Char) (h : '\r' ∉ p) : normCRLF p = p := by
  induction p with
  | nil => rfl
  | cons c rest ih =>
    have hc : c ≠ '\r' := fun hh => h (hh ▸ List.mem_cons_self c rest)
    have hrest : '\r' ∉ rest := fun hm => h (List.mem_cons_of_mem c hm)
    rw [normCRLF_cons_ne _ _ hc, ih hrest]

lemma normCR_id (p : List Char) (h : '\r' ∉ p) : normCR p = p := by
  induction p with
  | nil => rfl
  | cons c rest ih =>
    have hc : c ≠ '\r' := fun hh => h (hh ▸ List.mem_cons_self c rest)
    have hrest : '\r' ∉ rest := fun hm => h (List.mem_cons_of_mem c hm)
    rw [show normCR (c :: rest) = c :: normCR rest from by simp [normCR, hc], ih hrest]

/-- Decode-of-encode is the identity on payloads without carriage returns
and without the literal two-character sequence backslash-`n`. -/
lemma decodePayload_encodePayload (p : List Char) (hr : '\r' ∉ p)
    (hbs : containsSub2 '\\' 'n' p = false) :
    decodePayload (encodePayload p) = p := by
  unfold encodePayload decodePayload
  rw [normCRLF_id p hr, normCR_id p hr, htmlUnescape_htmlEscape, escToNl_nlToEsc p hbs]

/-! ### Line parsing lemmas -/

lemma pyStrip_wrapped (xs : List Char) :
    pyStrip ('<' :: (xs ++ ['>'])) = '<' :: (xs ++ ['>']) := by
  unfold pyStrip
  rw [List.dropWhile_cons_of_neg (by decide : ¬ isPySpace '<' = true)]
  rw [show ('<' :: (xs ++ ['>'])).reverse = '>' :: (xs.reverse ++ ['<']) by simp]
  rw [List.dropWhile_cons_of_neg (by decide : ¬ isPySpace '>' = true)]
  rw [show ('>' :: (xs.reverse ++ ['<'])) = ('<' :: (xs ++ ['>'])).reverse by simp]
  rw [List.reverse_reverse]

lemma containsSub2_cons_of (a b x : Char) (l : List Char)
    (h : containsSub2 a b l = true) : containsSub2 a b (x :: l) = true := by
  cases l with
  | nil => simp [containsSub2] at h
  | cons y rest =>
    simp only [containsSub2, Bool.or_eq_true]
    exact Or.inr h

lemma containsSub2_mk (a b : Char) (X Y : List Char) :
    containsSub2 a b (X ++ a :: b :: Y) = true := by
  induction X with
  | nil =>
    simp only [List.nil_append, containsSub2, Bool.or_eq_true]
    left
    simp
  | cons x X' ih => exact containsSub2_cons_of a b x _ ih

lemma findIdx?_append_start (c : Char) (B : List Char) :
    ∀ (A : List Char), c ∉ A → ∀ i,
      List.findIdx? (fun x => decide (x = c)) (A ++ c :: B) i = some (i + A.length) := by
  intro A
  induction A with
  | nil =>
    intro _ i
    simp [List.findIdx?_cons]
  | cons x A' ih =>
    intro h i
    have hx : ¬ x = c := fun hh => h (hh ▸ List.mem_cons_self x A')
    have hA' : c ∉ A' := fun hm => h (List.mem_cons_of_mem x hm)
    simp only [List.cons_append, List.findIdx?_cons]
    rw [if_neg (by simpa using hx), ih hA' (i + 1)]
    simp only [List.length_cons, Option.some.injEq]
    omega

lemma findCharIdx_append (c : Char) (A B : List Char) (h : c ∉ A) :
    findCharIdx c (A ++ c :: B) = some A.length := by
  unfold findCharIdx
  rw [findIdx?_append_start c B A h 0]
  simp

lemma rfindCharIdx_last (c : Char) (K : List Char) :
    rfindCharIdx c (K ++ [c]) = some K.length := by
  unfold rfindCharIdx
  have h1 : (K ++ [c]).reverse = c :: K.reverse := by simp
  rw [h1]
  have h2 : findCharIdx c (c :: K.reverse) = some 0 := by
    simp [findCharIdx, List.findIdx?_cons]
  rw [h2]
  simp

lemma rfindSub2Aux_none (a b : Char) (s : List Char) :
    ∀ i best, containsSub2 a b s = false → rfindSub2Aux a b s i best = best := by
  induction s with
  | nil => intro i best _; rfl
  | cons x s' ih =>
    intro i best h
    cases s' with
    | nil => rfl
    | cons y rest =>
      simp only [containsSub2, Bool.or_eq_false_iff] at h
      simp only [rfindSub2Aux]
      rw [if_neg (by simpa using h.1)]
      exact ih (i + 1) best (by simpa using h.2)

lemma rfindSub2Aux_found (a b : Char) (C : List Char)
    (hC : containsSub2 a b (b :: C) = false) :
    ∀ (A : List Char) (i : Nat) (best : Option Nat),
      rfindSub2Aux a b (A ++ a :: b :: C) i best = some (i + A.length) := by
  intro A
  induction A with
  | nil =>
    intro i best
    simp only [List.nil_append, rfindSub2Aux]
    rw [if_pos (by simp)]
    rw [rfindSub2Aux_none a b (b :: C) (i + 1) (some i) hC]
    simp
  | cons x A' ih =>
    intro i best
    rcases hA : A' ++ a :: b :: C with _ | ⟨y, rest⟩
    · exact absurd hA (by simp)
    · simp only [List.cons_append, hA, rfindSub2Aux]
      have := ih (i + 1) (if (x = a && y = b) = true then some i else best)
      rw [hA] at this
      rw [this]
      simp only [List.length_cons]
      congr 1
      omega

lemma rfindSub2_found (a b : Char) (A C : List Char)
    (hC : containsSub2 a b (b :: C) = false) :
    rfindSub2 a b (A ++ a :: b :: C) = some A.length := by
  unfold rfindSub2
  rw [rfindSub2Aux_found a b C hC A 0 none]
  simp

lemma takeWhile_append_of (p : Char → Bool) (xs : List Char) (y : Char) (l : List Char)
    (hxs : ∀ c ∈ xs, p c = true) (hy : p y = false) :
    (xs ++ y :: l).takeWhile p = xs := by
  induction xs with
  | nil => simp [List.takeWhile_cons, hy]
  | cons x xs' ih =>
    have hx : p x = true := hxs x (List.mem_cons_self x xs')
    simp only [List.cons_append, List.takeWhile_cons, hx, if_true]
    rw [ih (fun c hc => hxs c (List.mem_cons_of_mem x hc))]

lemma splitSpace1_mk (tag rest : List Char) (htag : ∀ c ∈ tag, c ≠ ' ') :
    splitSpace1 (tag ++ ' ' :: rest) = (tag, rest) := by
  unfold splitSpace1
  have h1 : (tag ++ ' ' :: rest).takeWhile (fun c => c ≠ ' ') = tag := by
    refine takeWhile_append_of _ tag ' ' rest ?_ (by simp)
    intro c hc
    simpa using htag c hc
  rw [h1]
  have h2 : (tag ++ ' ' :: rest).drop tag.length = ' ' :: rest := List.drop_left tag _
  simp [h2]

lemma tryAttr_timestamp (ts : List Char) (hts : ∀ c ∈ ts, c ≠ '"') :
    tryAttr ("timestamp=".toList ++ '"' :: (ts ++ ['"']))
      = some ("timestamp".toList, ts, []) := by
  have hshape : "timestamp=".toList ++ '"' :: (ts ++ ['"'])
      = "timestamp".toList ++ '=' :: '"' :: (ts ++ ['"']) := by
    rw [show "timestamp=".toList = "timestamp".toList ++ ['='] from by decide]
    rw [List.append_assoc]
    rfl
  rw [hshape]
  have hname : ("timestamp".toList ++ '=' :: '"' :: (ts ++ ['"'])).takeWhile isWordChar
      = "timestamp".toList := by
    refine takeWhile_append_of isWordChar _ '=' _ ?_ (by decide)
    intro c hc
    fin_cases hc <;> decide
  have hdrop9 : ("timestamp".toList ++ '=' :: '"' :: (ts ++ ['"'])).drop
      ("timestamp".toList).length = '=' :: '"' :: (ts ++ ['"']) := List.drop_left _ _
  have hv : (ts ++ ['"']).takeWhile (fun c => c ≠ '"') = ts := by
    refine takeWhile_append_of _ ts '"' [] ?_ (by decide)
    intro c hc
    simpa using hts c hc
  have hvd : (ts ++ ['"']).drop ts.length = ['"'] := List.drop_left _ _
  simp only [tryAttr, hname, hdrop9]
  rw [if_neg (by decide)]
  rw [List.dropWhile_cons_of_neg (by decide : ¬ isPySpace '=' = true)]
  simp only []
  rw [List.dropWhile_cons_of_neg (by decide : ¬ isPySpace '"' = true)]
  simp only [hv, hvd]

lemma attrScanAux_nil (fuel : Nat) : attrScanAux fuel [] = [] := by
  cases fuel <;> rfl

lemma attrScan_timestamp (ts : List Char) (hts : ∀ c ∈ ts, c ≠ '"') :
    attrScan ("timestamp=".toList ++ '"' :: (ts ++ ['"']))
      = [("timestamp".toList, ts)] := by
  unfold attrScan
  have hlen : ("timestamp=".toList ++ '"' :: (ts ++ ['"'])).length
      = (('"' :: (ts ++ ['"'])).length + 9) + 1 := by
    simp [List.length_append]
  rw [hlen]
  rw [show "timestamp=".toList ++ '"' :: (ts ++ ['"'])
      = 't' :: ("imestamp=".toList ++ '"' :: (ts ++ ['"'])) from rfl]
  simp only [attrScanAux]
  rw [show 't' :: ("imestamp=".toList ++ '"' :: (ts ++ ['"']))
      = "timestamp=".toList ++ '"' :: (ts ++ ['"']) from rfl]
  rw [tryAttr_timestamp ts hts]
  simp only [attrScanAux_nil]

lemma attrGetLast_timestamp (ts : List Char) :
    attrGetLast [("timestamp".toList, ts)] "timestamp".toList = ts := by
  simp [attrGetLast, List.find?]

lemma mem_htmlEscape_no_angle (s : List Char) :
    ∀ c ∈ htmlEscape s, c ≠ '<' ∧ c ≠ '>' := by
  induction s with
  | nil => intro c hc; exact absurd hc (by simp [htmlEscape, repAmp, repLt, repGt])
  | cons d s' ih =>
    intro c hc
    rw [htmlEscape_cons] at hc
    rcases List.mem_append.mp hc with hc | hc
    · by_cases h1 : d = '&'
      · subst h1
        simp only [escChar, if_pos rfl] at hc
        fin_cases hc <;> exact ⟨by decide, by decide⟩
      · by_cases h2 : d = '<'
        · subst h2
          simp only [escChar, h1, if_false, if_pos rfl] at hc
          fin_cases hc <;> exact ⟨by decide, by decide⟩
        · by_cases h3 : d = '>'
          · subst h3
            simp only [escChar, h1, h2, if_false, if_pos rfl] at hc
            fin_cases hc <;> exact ⟨by decide, by decide⟩
          · simp only [escChar, h1, h2, h3, if_false, List.mem_singleton] at hc
            subst hc
            exact ⟨h2, h3⟩
    · exact ih c hc

lemma mem_encodePayload_no_angle (p : List Char) :
    ∀ c ∈ encodePayload p, c ≠ '<' ∧ c ≠ '>' := by
  intro c hc
  exact mem_htmlEscape_no_angle _ c hc

lemma containsSub2_eq_false_of (a b : Char) (l : List Char) (h : ∀ x ∈ l, x ≠ a) :
    containsSub2 a b l = false := by
  induction l with
  | nil => rfl
  | cons x l' ih =>
    cases l' with
    | nil => rfl
    | cons y rest =>
      simp only [containsSub2, Bool.or_eq_false_iff]
      constructor
      · have hx : x ≠ a := h x (List.mem_cons_self x _)
        simp [hx]
      · exact ih (fun z hz => h z (List.mem_cons_of_mem x hz))

lemma pySlice_append (A mid B : List Char) (a b : Nat) (ha : A.length = a)
    (hb : b - a = mid.length) : pySlice (A ++ (mid ++ B)) a b = mid := by
  unfold pySlice
  rw [List.drop_left' ha, hb]
  exact List.take_left _ _

lemma parseLine_defaultFormatter (tag ts payload : List Char)
    (htag1 : tag ≠ []) (htag2 : ∀ c ∈ tag, isWordChar c = true)
    (hts1 : ∀ c ∈ ts, c ≠ '"') (hts2 : ∀ c ∈ ts, c ≠ '>')
    (hr : '\r' ∉ payload) (hbs : containsSub2 '\\' 'n' payload = false) :
    parseLine ('<' :: (tag ++ ' ' :: ("timestamp=".toList ++ '"' :: (ts ++ '"' :: '>' ::
        (encodePayload payload ++ '<' :: '/' :: (tag ++ ['>']))))))
      = some (tag, ts, payload) := by
  have htag_sp : ∀ c ∈ tag, c ≠ ' ' := by
    intro c hc h
    have := htag2 c hc
    rw [h] at this
    exact absurd this (by decide)
  have htag_lt : ∀ c ∈ tag, c ≠ '<' := by
    intro c hc h
    have := htag2 c hc
    rw [h] at this
    exact absurd this (by decide)
  have htag_gt : ∀ c ∈ tag, c ≠ '>' := by
    intro c hc h
    have := htag2 c hc
    rw [h] at this
    exact absurd this (by decide)
  have henc_lt : ∀ c ∈ encodePayload payload, c ≠ '<' :=
    fun c hc => (mem_encodePayload_no_angle payload c hc).1
  have henc_gt : ∀ c ∈ encodePayload payload, c ≠ '>' :=
    fun c hc => (mem_encodePayload_no_angle payload c hc).2
  have hv1 : '<' :: (tag ++ ' ' :: ("timestamp=".toList ++ '"' :: (ts ++ '"' :: '>' ::
        (encodePayload payload ++ '<' :: '/' :: (tag ++ ['>'])))))
      = '<' :: ((tag ++ ' ' :: ("timestamp=".toList ++ '"' :: (ts ++ '"' :: '>' ::
        (encodePayload payload ++ '<' :: '/' :: tag)))) ++ ['>']) := by
    simp [List.append_assoc]
  have hv2 : '<' :: (tag ++ ' ' :: ("timestamp=".toList ++ '"' :: (ts ++ '"' :: '>' ::
        (encodePayload payload ++ '<' :: '/' :: (tag ++ ['>'])))))
      = ('<' :: (tag ++ ' ' :: ("timestamp=".toList ++ '"' :: (ts ++ ['"']))))
          ++ '>' :: (encodePayload payload ++ '<' :: '/' :: (tag ++ ['>'])) := by
    simp [List.append_assoc]
  have hv2b : '<' :: (tag ++ ' ' :: ("timestamp=".toList ++ '"' :: (ts ++ '"' :: '>' ::
        (encodePayload payload ++ '<' :: '/' :: (tag ++ ['>'])))))
      = '<' :: ((tag ++ ' ' :: ("timestamp=".toList ++ '"' :: (ts ++ ['"'])))
          ++ '>' :: (encodePayload payload ++ '<' :: '/' :: (tag ++ ['>']))) := by
    simp [List.append_assoc]
  have hv3 : '<' :: (tag ++ ' ' :: ("timestamp=".toList ++ '"' :: (ts ++ '"' :: '>' ::
        (encodePayload payload ++ '<' :: '/' :: (tag ++ ['>'])))))
      = (('<' :: (tag ++ ' ' :: ("timestamp=".toList ++ '"' :: (ts ++ ['"']))))
          ++ '>' :: encodePayload payload) ++ '<' :: '/' :: (tag ++ ['>']) := by
    simp [List.append_assoc]
  have hv4 : '<' :: (tag ++ ' ' :: ("timestamp=".toList ++ '"' :: (ts ++ '"' :: '>' ::
        (encodePayload payload ++ '<' :: '/' :: (tag ++ ['>'])))))
      = ((('<' :: (tag ++ ' ' :: ("timestamp=".toList ++ '"' :: (ts ++ ['"']))))
          ++ '>' :: encodePayload payload) ++ '<' :: '/' :: tag) ++ ['>'] := by
    simp [List.append_assoc]
  have hv5 : '<' :: (tag ++ ' ' :: ("timestamp=".toList ++ '"' :: (ts ++ '"' :: '>' ::
        (encodePayload payload ++ '<' :: '/' :: (tag ++ ['>'])))))
      = ((('<' :: (tag ++ ' ' :: ("timestamp=".toList ++ '"' :: (ts ++ ['"']))))
          ++ '>' :: encodePayload payload) ++ ['<', '/']) ++ (tag ++ ['>']) := by
    simp [List.append_assoc]
  have hv6 : '<' :: (tag ++ ' ' :: ("timestamp=".toList ++ '"' :: (ts ++ '"' :: '>' ::
        (encodePayload payload ++ '<' :: '/' :: (tag ++ ['>'])))))
      = (('<' :: (tag ++ ' ' :: ("timestamp=".toList ++ '"' :: (ts ++ ['"'])))) ++ ['>'])
          ++ (encodePayload payload ++ '<' :: '/' :: (tag ++ ['>'])) := by
    simp [List.append_assoc]
  have hstrip : pyStrip ('<' :: (tag ++ ' ' :: ("timestamp=".toList ++ '"' :: (ts ++ '"' :: '>' ::
        (encodePayload payload ++ '<' :: '/' :: (tag ++ ['>']))))))
      = '<' :: (tag ++ ' ' :: ("timestamp=".toList ++ '"' :: (ts ++ '"' :: '>' ::
        (encodePayload payload ++ '<' :: '/' :: (tag ++ ['>']))))) := by
    rw [hv1]
    exact pyStrip_wrapped _
  have hAngleA : '>' ∉ '<' :: (tag ++ ' ' :: ("timestamp=".toList ++ '"' :: (ts ++ ['"']))) := by
    intro hmem
    rcases List.mem_cons.mp hmem with h | hmem
    · exact absurd h (by decide)
    rcases List.mem_append.mp hmem with h | hmem
    · exact htag_gt '>' h rfl
    rcases List.mem_cons.mp hmem with h | hmem
    · exact absurd h (by decide)
    rcases List.mem_append.mp hmem with h | hmem
    · have : ('>' : Char) ∈ "timestamp=".toList := h
      exact absurd this (by decide)
    rcases List.mem_cons.mp hmem with h | hmem
    · exact absurd h (by decide)
    rcases List.mem_append.mp hmem with h | h
    · exact hts2 '>' h rfl
    · have : ('>' : Char) ∈ ['"'] := h
      exact absurd this (by decide)
  have hfind : findCharIdx '>' ('<' :: (tag ++ ' ' :: ("timestamp=".toList ++ '"' :: (ts ++ '"' :: '>' ::
        (encodePayload payload ++ '<' :: '/' :: (tag ++ ['>']))))))
      = some ('<' :: (tag ++ ' ' :: ("timestamp=".toList ++ '"' :: (ts ++ ['"'])))).length := by
    rw [hv2]
    exact findCharIdx_append '>' _ _ hAngleA
  have hC : containsSub2 '<' '/' ('/' :: (tag ++ ['>'])) = false := by
    refine containsSub2_eq_false_of '<' '/' _ ?_
    intro x hx
    rcases List.mem_cons.mp hx with h | hx
    · subst h; decide
    rcases List.mem_append.mp hx with h | h
    · exact htag_lt x h
    · have : x ∈ ['>'] := h
      simp only [List.mem_singleton] at this
      subst this
      decide
  have hcontains : containsSub2 '<' '/' ('<' :: (tag ++ ' ' :: ("timestamp=".toList ++ '"' :: (ts ++ '"' :: '>' ::
        (encodePayload payload ++ '<' :: '/' :: (tag ++ ['>'])))))) = true := by
    rw [hv3]
    exact containsSub2_mk '<' '/' _ _
  have hrfind2 : rfindSub2 '<' '/' ('<' :: (tag ++ ' ' :: ("timestamp=".toList ++ '"' :: (ts ++ '"' :: '>' ::
        (encodePayload payload ++ '<' :: '/' :: (tag ++ ['>']))))))
      = some (('<' :: (tag ++ ' ' :: ("timestamp=".toList ++ '"' :: (ts ++ ['"']))))
          ++ '>' :: encodePayload payload).length := by
    rw [hv3]
    exact rfindSub2_found '<' '/' _ _ hC
  have hrfindGt : rfindCharIdx '>' ('<' :: (tag ++ ' ' :: ("timestamp=".toList ++ '"' :: (ts ++ '"' :: '>' ::
        (encodePayload payload ++ '<' :: '/' :: (tag ++ ['>']))))))
      = some (((('<' :: (tag ++ ' ' :: ("timestamp=".toList ++ '"' :: (ts ++ ['"']))))
          ++ '>' :: encodePayload payload) ++ '<' :: '/' :: tag)).length := by
    rw [hv4]
    exact rfindCharIdx_last '>' _
  have hslice1 : pySlice ('<' :: (tag ++ ' ' :: ("timestamp=".toList ++ '"' :: (ts ++ '"' :: '>' ::
        (encodePayload payload ++ '<' :: '/' :: (tag ++ ['>'])))))) 1
        ('<' :: (tag ++ ' ' :: ("timestamp=".toList ++ '"' :: (ts ++ ['"'])))).length
      = tag ++ ' ' :: ("timestamp=".toList ++ '"' :: (ts ++ ['"'])) := by
    have hw : '<' :: (tag ++ ' ' :: ("timestamp=".toList ++ '"' :: (ts ++ '"' :: '>' ::
          (encodePayload payload ++ '<' :: '/' :: (tag ++ ['>'])))))
        = ['<'] ++ ((tag ++ ' ' :: ("timestamp=".toList ++ '"' :: (ts ++ ['"'])))
            ++ ('>' :: (encodePayload payload ++ '<' :: '/' :: (tag ++ ['>'])))) := by
      simp [List.append_assoc]
    have hb : ('<' :: (tag ++ ' ' :: ("timestamp=".toList ++ '"' :: (ts ++ ['"'])))).length - 1
        = (tag ++ ' ' :: ("timestamp=".toList ++ '"' :: (ts ++ ['"']))).length := by
      simp only [List.length_cons]
      omega
    rw [hw]
    exact pySlice_append _ _ _ _ _ rfl hb
  have hsplit : splitSpace1 (tag ++ ' ' :: ("timestamp=".toList ++ '"' :: (ts ++ ['"'])))
      = (tag, "timestamp=".toList ++ '"' :: (ts ++ ['"'])) :=
    splitSpace1_mk tag _ htag_sp
  have hcontains_sp : (tag ++ ' ' :: ("timestamp=".toList ++ '"' :: (ts ++ ['"']))).contains ' '
      = true := by
    simp [List.contains]
  have hCSlen : ((('<' :: (tag ++ ' ' :: ("timestamp=".toList ++ '"' :: (ts ++ ['"']))))
        ++ '>' :: encodePayload payload) ++ ['<', '/']).length
      = (((('<' :: (tag ++ ' ' :: ("timestamp=".toList ++ '"' :: (ts ++ ['"']))))
        ++ '>' :: encodePayload payload)).length + 2) := by
    simp only [List.length_append, List.length_cons, List.length_nil]
  have hTagSub : (((('<' :: (tag ++ ' ' :: ("timestamp=".toList ++ '"' :: (ts ++ ['"']))))
          ++ '>' :: encodePayload payload) ++ '<' :: '/' :: tag)).length
      - (((('<' :: (tag ++ ' ' :: ("timestamp=".toList ++ '"' :: (ts ++ ['"']))))
          ++ '>' :: encodePayload payload)).length + 2) = tag.length := by
    simp only [List.length_append, List.length_cons, List.length_nil]
    omega
  have hsliceTag : pySlice ('<' :: (tag ++ ' ' :: ("timestamp=".toList ++ '"' :: (ts ++ '"' :: '>' ::
        (encodePayload payload ++ '<' :: '/' :: (tag ++ ['>']))))))
        (((('<' :: (tag ++ ' ' :: ("timestamp=".toList ++ '"' :: (ts ++ ['"']))))
          ++ '>' :: encodePayload payload)).length + 2)
        (((('<' :: (tag ++ ' ' :: ("timestamp=".toList ++ '"' :: (ts ++ ['"']))))
          ++ '>' :: encodePayload payload) ++ '<' :: '/' :: tag)).length
      = tag := by
    rw [hv5]
    exact pySlice_append _ _ _ _ _ hCSlen hTagSub
  have hslicePayload : pySlice ('<' :: (tag ++ ' ' :: ("timestamp=".toList ++ '"' :: (ts ++ '"' :: '>' ::
        (encodePayload payload ++ '<' :: '/' :: (tag ++ ['>']))))))
        (('<' :: (tag ++ ' ' :: ("timestamp=".toList ++ '"' :: (ts ++ ['"'])))).length + 1)
        (((('<' :: (tag ++ ' ' :: ("timestamp=".toList ++ '"' :: (ts ++ ['"']))))
          ++ '>' :: encodePayload payload)).length)
      = encodePayload payload := by
    have ha : (('<' :: (tag ++ ' ' :: ("timestamp=".toList ++ '"' :: (ts ++ ['"'])))) ++ ['>']).length
        = ('<' :: (tag ++ ' ' :: ("timestamp=".toList ++ '"' :: (ts ++ ['"'])))).length + 1 := by
      simp only [List.length_append, List.length_cons, List.length_nil]
    have hb : ((('<' :: (tag ++ ' ' :: ("timestamp=".toList ++ '"' :: (ts ++ ['"']))))
          ++ '>' :: encodePayload payload)).length
        - (('<' :: (tag ++ ' ' :: ("timestamp=".toList ++ '"' :: (ts ++ ['"'])))).length + 1)
        = (encodePayload payload).length := by
      simp only [List.length_append, List.length_cons, List.length_nil]
      omega
    rw [hv6]
    exact pySlice_append _ _ _ _ _ ha hb
  have hattr : attrGetLast (attrScan ("timestamp=".toList ++ '"' :: (ts ++ ['"'])))
      "timestamp".toList = ts := by
    rw [attrScan_timestamp ts hts1, attrGetLast_timestamp]
  have hdec : decodePayload (encodePayload payload) = payload :=
    decodePayload_encodePayload payload hr hbs
  have hhead : ('<' :: (tag ++ ' ' :: ("timestamp=".toList ++ '"' :: (ts ++ '"' :: '>' ::
      (encodePayload payload ++ '<' :: '/' :: (tag ++ ['>'])))))).head? = some '<' := rfl
  simp only [parseLine]
  rw [hstrip]
  rw [if_neg (not_not_intro hhead)]
  rw [if_neg (not_not_intro hcontains)]
  simp only [hfind]
  rw [hslice1]
  rw [if_pos hcontains_sp, hsplit]
  simp only [hrfind2, hrfindGt]
  rw [hsliceTag]
  rw [if_neg (by simp)]
  rw [hslicePayload, hattr, hdec]

/-! ### `str.splitlines` lemmas -/

lemma isEmpty_false_of_ne_nil {l : List Char} (h : l ≠ []) : l.isEmpty = false := by
  cases l with
  | nil => exact absurd rfl h
  | cons x xs => rfl

set_option maxHeartbeats 1000000 in
lemma splitlinesAux_arm3 (c : Char) (rest acc : List Char)
    (hg : ¬ (c = '\r' ∧ ∃ r1, rest = '\n' :: r1)) :
    splitlinesAux (c :: rest) acc
      = if isLineBreak c then
          (if rest.isEmpty then [acc.reverse] else acc.reverse :: splitlinesAux rest [])
        else splitlinesAux rest (c :: acc) := by
  rw [splitlinesAux.eq_def]
  split
  · rename_i x1 x2 x3 heq
    exact absurd heq (by simp)
  · rename_i x1 x2 x3 r1 heq
    rw [List.cons.injEq] at heq
    exact absurd ⟨heq.1, r1, heq.2⟩ hg
  · rename_i x1 x2 x3 c1 r1 g1 heq
    rw [List.cons.injEq] at heq
    rw [heq.1, heq.2]

lemma splitlinesAux_crlf (rest acc : List Char) (hrest : rest ≠ []) :
    splitlinesAux ('\r' :: '\n' :: rest) acc = acc.reverse :: splitlinesAux rest [] := by
  simp [splitlinesAux, isEmpty_false_of_ne_nil hrest]

lemma splitlinesAux_crlf_nil (acc : List Char) :
    splitlinesAux ['\r', '\n'] acc = [acc.reverse] := by
  simp [splitlinesAux]

lemma splitlinesAux_break (c : Char) (rest acc : List Char)
    (hcr : c ≠ '\r') (hc : isLineBreak c = true) (hrest : rest ≠ []) :
    splitlinesAux (c :: rest) acc = acc.reverse :: splitlinesAux rest [] := by
  rw [splitlinesAux_arm3 c rest acc (by rintro ⟨h1, _, _⟩; exact hcr h1)]
  rw [if_pos hc, if_neg (by rw [isEmpty_false_of_ne_nil hrest]; exact Bool.false_ne_true)]

lemma splitlinesAux_break_nil (c : Char) (acc : List Char)
    (hc : isLineBreak c = true) :
    splitlinesAux [c] acc = [acc.reverse] := by
  rw [splitlinesAux_arm3 c [] acc (by rintro ⟨h1, _, h2⟩; exact List.noConfusion h2)]
  rw [if_pos hc]
  rfl

lemma splitlinesAux_nobreak (c : Char) (rest acc : List Char)
    (hc : isLineBreak c = false) :
    splitlinesAux (c :: rest) acc = splitlinesAux rest (c :: acc) := by
  have hcr : c ≠ '\r' := by
    intro h
    subst h
    exact absurd hc (by decide)
  rw [splitlinesAux_arm3 c rest acc (by rintro ⟨h1, _, _⟩; exact hcr h1)]
  rw [if_neg (by rw [hc]; exact Bool.false_ne_true)]

lemma splitlinesAux_cr_other (d : Char) (rest acc : List Char) (hd : d ≠ '\n') :
    splitlinesAux ('\r' :: d :: rest) acc = acc.reverse :: splitlinesAux (d :: rest) [] := by
  rw [splitlinesAux_arm3 '\r' (d :: rest) acc
    (by rintro ⟨-, r1, h2⟩; rw [List.cons.injEq] at h2; exact hd h2.1)]
  rw [if_pos (by decide), if_neg (by exact Bool.false_ne_true)]

lemma splitlinesAux_append_nl (ys : List Char) (hys : ys ≠ []) :
    ∀ (u acc : List Char),
    splitlinesAux (u ++ '\n' :: ys) acc
      = splitlinesAux (u ++ ['\n']) acc ++ splitlinesAux ys [] := by
  intro u acc
  induction u, acc using splitlinesAux.induct with
  | case1 acc =>
    rw [List.nil_append, List.nil_append]
    rw [splitlinesAux_break '\n' ys acc (by decide) (by decide) hys]
    rw [splitlinesAux_break_nil '\n' acc (by decide)]
    rfl
  | case2 rest acc hrest =>
    have h0 : rest = [] := by
      cases rest with
      | nil => rfl
      | cons x xs => exact absurd hrest (by simp)
    subst h0
    show splitlinesAux ('\r' :: '\n' :: ('\n' :: ys)) acc
      = splitlinesAux ['\r', '\n', '\n'] acc ++ splitlinesAux ys []
    rw [splitlinesAux_crlf ('\n' :: ys) acc (by simp)]
    rw [splitlinesAux_break '\n' ys [] (by decide) (by decide) hys]
    rw [show (['\r', '\n', '\n'] : List Char) = '\r' :: '\n' :: ['\n'] from rfl]
    rw [splitlinesAux_crlf ['\n'] acc (by simp)]
    rw [splitlinesAux_break_nil '\n' [] (by decide)]
    rfl
  | case3 rest acc hrest ih =>
    show splitlinesAux ('\r' :: '\n' :: (rest ++ '\n' :: ys)) acc
      = splitlinesAux ('\r' :: '\n' :: (rest ++ ['\n'])) acc ++ splitlinesAux ys []
    rw [splitlinesAux_crlf (rest ++ '\n' :: ys) acc (by simp)]
    rw [splitlinesAux_crlf (rest ++ ['\n']) acc (by simp)]
    rw [ih]
    rfl
  | case4 c rest acc hg hc hrest =>
    have h0 : rest = [] := by
      cases rest with
      | nil => rfl
      | cons x xs => exact absurd hrest (by simp)
    subst h0
    by_cases hcr : c = '\r'
    · subst hcr
      show splitlinesAux ('\r' :: '\n' :: ys) acc
        = splitlinesAux ['\r', '\n'] acc ++ splitlinesAux ys []
      rw [splitlinesAux_crlf ys acc hys, splitlinesAux_crlf_nil acc]
      rfl
    · show splitlinesAux (c :: '\n' :: ys) acc
        = splitlinesAux (c :: ['\n']) acc ++ splitlinesAux ys []
      rw [splitlinesAux_break c ('\n' :: ys) acc hcr hc (by simp)]
      rw [splitlinesAux_break '\n' ys [] (by decide) (by decide) hys]
      rw [splitlinesAux_break c ['\n'] acc hcr hc (by simp)]
      rw [splitlinesAux_break_nil '\n' [] (by decide)]
      rfl
  | case5 c rest acc hg hc hrest ih =>
    have h0 : rest ≠ [] := by
      intro h
      rw [h] at hrest
      exact hrest rfl
    by_cases hcr : c = '\r'
    · subst hcr
      obtain ⟨d, rest', rfl⟩ : ∃ d rest', rest = d :: rest' := by
        cases rest with
        | nil => exact absurd rfl h0
        | cons d r => exact ⟨d, r, rfl⟩
      have hd : d ≠ '\n' := by
        intro h
        exact hg rest' rfl (by rw [h])
      show splitlinesAux ('\r' :: ((d :: rest') ++ '\n' :: ys)) acc
        = splitlinesAux ('\r' :: ((d :: rest') ++ ['\n'])) acc ++ splitlinesAux ys []
      rw [List.cons_append, List.cons_append]
      rw [splitlinesAux_cr_other d (rest' ++ '\n' :: ys) acc hd]
      rw [splitlinesAux_cr_other d (rest' ++ ['\n']) acc hd]
      rw [show (d :: (rest' ++ '\n' :: ys)) = ((d :: rest') ++ '\n' :: ys) from rfl]
      rw [show (d :: (rest' ++ ['\n'])) = ((d :: rest') ++ ['\n']) from rfl]
      rw [ih]
      rfl
    · show splitlinesAux (c :: (rest ++ '\n' :: ys)) acc
        = splitlinesAux (c :: (rest ++ ['\n'])) acc ++ splitlinesAux ys []
      rw [splitlinesAux_break c (rest ++ '\n' :: ys) acc hcr hc (by simp)]
      rw [splitlinesAux_break c (rest ++ ['\n']) acc hcr hc (by simp)]
      rw [ih]
      rfl
  | case6 c rest acc hg hc ih =>
    have hc' : isLineBreak c = false := by
      cases h : isLineBreak c with
      | false => rfl
      | true => exact absurd h hc
    show splitlinesAux (c :: (rest ++ '\n' :: ys)) acc
      = splitlinesAux (c :: (rest ++ ['\n'])) acc ++ splitlinesAux ys []
    rw [splitlinesAux_nobreak c (rest ++ '\n' :: ys) acc hc']
    rw [splitlinesAux_nobreak c (rest ++ ['\n']) acc hc']
    exact ih

lemma splitlinesAux_line (line : List Char) :
    ∀ acc : List Char, (∀ c ∈ line, isLineBreak c = false) →
    splitlinesAux (line ++ ['\n']) acc = [acc.reverse ++ line] := by
  induction line with
  | nil =>
    intro acc _
    rw [List.nil_append]
    rw [splitlinesAux_break_nil '\n' acc (by decide)]
    rw [List.append_nil]
  | cons c line' ih =>
    intro acc h
    rw [List.cons_append]
    rw [splitlinesAux_nobreak c (line' ++ ['\n']) acc (h c (List.mem_cons_self c _))]
    rw [ih (c :: acc) (fun d hd => h d (List.mem_cons_of_mem c hd))]
    rw [List.reverse_cons, List.append_assoc]
    rfl

lemma splitlinesPy_line (line : List Char) (h : ∀ c ∈ line, isLineBreak c = false) :
    splitlinesPy (line ++ ['\n']) = [line] := by
  unfold splitlinesPy
  rw [if_neg (by
    rw [isEmpty_false_of_ne_nil (by simp : line ++ ['\n'] ≠ [])]
    exact Bool.false_ne_true)]
  rw [splitlinesAux_line line [] h]
  rfl

lemma splitlinesPy_append_line (file line : List Char)
    (hfile : file = [] ∨ file.getLast? = some '\n')
    (hline : ∀ c ∈ line, isLineBreak c = false) :
    splitlinesPy (file ++ (line ++ ['\n'])) = splitlinesPy file ++ [line] := by
  rcases hfile with rfl | hlast
  · rw [List.nil_append, splitlinesPy_line line hline]
    rfl
  · have hne : file ≠ [] := by
      intro h
      rw [h] at hlast
      simp at hlast
    obtain ⟨u, rfl⟩ : ∃ u, file = u ++ ['\n'] := by
      have h1 : file.dropLast ++ [file.getLast hne] = file := List.dropLast_append_getLast hne
      have h2 : file.getLast hne = '\n' := by
        rw [List.getLast?_eq_getLast file hne] at hlast
        exact Option.some.inj hlast
      refine ⟨file.dropLast, ?_⟩
      conv_lhs => rw [← h1, h2]
    have hx : (u ++ ['\n']) ++ (line ++ ['\n']) = u ++ '\n' :: (line ++ ['\n']) := by
      rw [List.append_assoc]
      rfl
    rw [hx]
    unfold splitlinesPy
    rw [if_neg (by
      rw [isEmpty_false_of_ne_nil (by simp : u ++ '\n' :: (line ++ ['\n']) ≠ [])]
      exact Bool.false_ne_true)]
    rw [if_neg (by
      rw [isEmpty_false_of_ne_nil (by simp : u ++ ['\n'] ≠ [])]
      exact Bool.false_ne_true)]
    rw [splitlinesAux_append_nl (line ++ ['\n']) (by simp) u []]
    rw [splitlinesAux_line line [] hline]
    rfl

/-! ### No-line-break facts about the formatted line -/

lemma isWordChar_not_break (c : Char) (h : isWordChar c = true) :
    isLineBreak c = false := by
  cases hb : isLineBreak c with
  | false => rfl
  | true =>
    simp only [isLineBreak, Bool.or_eq_true, decide_eq_true_eq] at hb
    rcases hb with ((((((((h1|h1)|h1)|h1)|h1)|h1)|h1)|h1)|h1)|h1 <;> subst h1 <;>
      exact absurd h (by decide)

lemma mem_nlToEsc_no_break (q : List Char)
    (h : ∀ c ∈ q, isLineBreak c = true → c = '\n') :
    ∀ c ∈ nlToEsc q, isLineBreak c = false := by
  induction q with
  | nil =>
    intro c hc
    exact absurd hc (by simp [nlToEsc])
  | cons d q' ih =>
    intro c hc
    have hq' : ∀ e ∈ q', isLineBreak e = true → e = '\n' :=
      fun e he hb => h e (List.mem_cons_of_mem d he) hb
    by_cases hd : d = '\n'
    · subst hd
      rw [show nlToEsc ('\n' :: q') = '\\' :: 'n' :: nlToEsc q' from rfl] at hc
      rcases List.mem_cons.mp hc with h1 | hc
      · subst h1
        decide
      rcases List.mem_cons.mp hc with h1 | hc
      · subst h1
        decide
      · exact ih hq' c hc
    · rw [nlToEsc_cons_ne d _ hd] at hc
      rcases List.mem_cons.mp hc with h1 | hc
      · subst h1
        cases hb : isLineBreak c with
        | false => rfl
        | true => exact absurd (h c (List.mem_cons_self _ _) hb) hd
      · exact ih hq' c hc

lemma mem_htmlEscape_no_break (q : List Char)
    (h : ∀ c ∈ q, isLineBreak c = false) :
    ∀ c ∈ htmlEscape q, isLineBreak c = false := by
  induction q with
  | nil =>
    intro c hc
    exact absurd hc (by simp [htmlEscape, repAmp, repLt, repGt])
  | cons d q' ih =>
    intro c hc
    have hq' : ∀ e ∈ q', isLineBreak e = false :=
      fun e he => h e (List.mem_cons_of_mem d he)
    rw [htmlEscape_cons] at hc
    rcases List.mem_append.mp hc with hc | hc
    · by_cases h1 : d = '&'
      · subst h1
        simp only [escChar, if_pos rfl] at hc
        fin_cases hc <;> decide
      · by_cases h2 : d = '<'
        · subst h2
          simp only [escChar, h1, if_false, if_pos rfl] at hc
          fin_cases hc <;> decide
        · by_cases h3 : d = '>'
          · subst h3
            simp only [escChar, h1, h2, if_false, if_pos rfl] at hc
            fin_cases hc <;> decide
          · simp only [escChar, h1, h2, h3, if_false, List.mem_singleton] at hc
            subst hc
            exact h _ (List.mem_cons_self _ _)
    · exact ih hq' c hc

lemma mem_encodePayload_no_break (p : List Char)
    (hr : '\r' ∉ p) (hp : ∀ c ∈ p, isLineBreak c = true → c = '\n') :
    ∀ c ∈ encodePayload p, isLineBreak c = false := by
  unfold encodePayload
  rw [normCRLF_id p hr, normCR_id p hr]
  exact mem_htmlEscape_no_break _ (mem_nlToEsc_no_break p hp)

lemma lineCore_no_break (tag ts payload : List Char)
    (htag2 : ∀ c ∈ tag, isWordChar c = true)
    (hts3 : ∀ c ∈ ts, isLineBreak c = false)
    (hr : '\r' ∉ payload)
    (hp : ∀ c ∈ payload, isLineBreak c = true → c = '\n') :
    ∀ c ∈ '<' :: (tag ++ ' ' :: ("timestamp=".toList ++ '"' :: (ts ++ '"' :: '>' ::
        (encodePayload payload ++ '<' :: '/' :: (tag ++ ['>']))))),
      isLineBreak c = false := by
  intro c hc
  rcases List.mem_cons.mp hc with h | hc
  · subst h
    decide
  rcases List.mem_append.mp hc with h | hc
  · exact isWordChar_not_break c (htag2 c h)
  rcases List.mem_cons.mp hc with h | hc
  · subst h
    decide
  rcases List.mem_append.mp hc with h | hc
  · rw [show "timestamp=".toList = ['t','i','m','e','s','t','a','m','p','='] from by decide] at h
    fin_cases h <;> decide
  rcases List.mem_cons.mp hc with h | hc
  · subst h
    decide
  rcases List.mem_append.mp hc with h | hc
  · exact hts3 c h
  rcases List.mem_cons.mp hc with h | hc
  · subst h
    decide
  rcases List.mem_cons.mp hc with h | hc
  · subst h
    decide
  rcases List.mem_append.mp hc with h | hc
  · exact mem_encodePayload_no_break payload hr hp c h
  rcases List.mem_cons.mp hc with h | hc
  · subst h
    decide
  rcases List.mem_cons.mp hc with h | hc
  · subst h
    decide
  rcases List.mem_append.mp hc with h | h
  · exact isWordChar_not_break c (htag2 c h)
  · rw [List.mem_singleton] at h
    subst h
    decide

/-- C6 (amended).  Append-then-reread round-trip for the conversation log:
for every payload whose only line-boundary characters are real newlines
(no carriage returns or other Unicode line boundaries) and which does not
contain the literal two-character sequence backslash-`n`, appending an
entry to a newline-terminated (or empty) log file and re-reading it via
`iter_entries` yields the original payload unchanged — embedded newlines
and tag-like substrings included — and leaves the previously parsed
entries untouched.  (The unrestricted claim is false: see the
counterexample below.) -/
theorem log_roundtrip_amended (file tag ts payload : List Char)
    (hfile : file = [] ∨ file.getLast? = some '\n')
    (htag1 : tag ≠ []) (htag2 : ∀ c ∈ tag, isWordChar c = true)
    (hts1 : ∀ c ∈ ts, c ≠ '"') (hts2 : ∀ c ∈ ts, c ≠ '>')
    (hts3 : ∀ c ∈ ts, isLineBreak c = false)
    (hp1 : ∀ c ∈ payload, isLineBreak c = true → c = '\n')
    (hp2 : containsSub2 '\\' 'n' payload = false) :
    iterEntries (appendEntry file tag ts payload)
      = iterEntries file ++ [(tag, ts, payload)] := by
  have hr : '\r' ∉ payload := by
    intro hm
    have := hp1 '\r' hm (by decide)
    exact absurd this (by decide)
  have hfmt : defaultFormatter tag ts payload
      = ('<' :: (tag ++ ' ' :: ("timestamp=".toList ++ '"' :: (ts ++ '"' :: '>' ::
          (encodePayload payload ++ '<' :: '/' :: (tag ++ ['>'])))))) ++ ['\n'] := by
    simp [defaultFormatter, List.append_assoc]
  have hparse := parseLine_defaultFormatter tag ts payload htag1 htag2 hts1 hts2 hr hp2
  unfold appendEntry iterEntries
  rw [hfmt]
  rw [splitlinesPy_append_line file _ hfile
    (lineCore_no_break tag ts payload htag2 hts3 hr hp1)]
  rw [List.filterMap_append]
  simp only [List.filterMap_cons, hparse, List.filterMap_nil]

/-- C6 witness: a concrete log append (payload with an embedded real
newline) and its re-read, at which every hypothesis of the amended
round-trip theorem holds. -/
theorem log_roundtrip_amended_witness :
    iterEntries (appendEntry [] "user_message".toList "2024-01-01 00:00:00".toList
        ('h' :: '\n' :: 'w' :: []))
      = iterEntries []
          ++ [("user_message".toList, "2024-01-01 00:00:00".toList,
               'h' :: '\n' :: 'w' :: [])] :=
  log_roundtrip_amended [] "user_message".toList "2024-01-01 00:00:00".toList
    ('h' :: '\n' :: 'w' :: []) (Or.inl rfl) (by decide) (by decide) (by decide)
    (by decide) (by decide) (by decide) (by decide)

/-- C6 counterexample: a payload containing the literal two-character
sequence backslash-`n` is read back with that sequence replaced by a real
newline, so the round trip is not the identity on all payloads. -/
theorem log_roundtrip_counterexample :
    iterEntries (appendEntry [] "user_message".toList "2024-01-01 00:00:00".toList
        ('a' :: '\\' :: 'n' :: 'b' :: []))
      = [("user_message".toList, "2024-01-01 00:00:00".toList,
          'a' :: '\n' :: 'b' :: [])]
    ∧ ('a' :: '\n' :: 'b' :: []) ≠ ('a' :: '\\' :: 'n' :: 'b' :: []) :=
  ⟨by decide, by decide⟩
